import Mathlib

/-!
Verification of the `panka` text editor's core: the rope text buffer
(`buffer/rope.go`) and the editor's undo/redo engine
(`editor/main.go`, `editor/input.go`, `editor/text_manipulation.go`,
`editor/render.go`).

The Go code is embedded shallowly:

* Go `[]rune` becomes `List Char`; Go strings handled by the editor are
  also modelled as `List Char` (Go converts between `string` and `[]rune`
  at every use site, and all loops are rune-based).
* Go `int` values that are always non-negative in every reachable state
  (lengths, weights, global offsets, entries of `lineStarts`) become `Nat`;
  values that the code can observe as negative (the `line`/`col` arguments,
  cursor coordinates) become `Int`.  Overflow of 64-bit integers is
  immaterial at these sizes and is not modelled.
* Go methods that mutate their receiver become functions returning the
  updated value; `(T, error)` returns become pairs with an `Option`/`Except`
  error component.  Error values produced with `fmt.Errorf` are modelled by
  the inductive `BufErr`, one constructor per `fmt.Errorf` site.
* An `io.Writer` is modelled as a state-transition function
  `σ → List Char → σ × Nat × Option ε`: one call consumes one chunk and
  reports the number of characters accepted plus an optional error,
  exactly the shape of Go's `Write([]byte) (int, error)`.
-/

namespace Panka

/-- Maximum leaf size before an insert splits a leaf (`maxLeafSize` in rope.go). -/
def maxLeafSize : Nat := 1024

/-- Binary tree node of the rope (`node` in rope.go).  In the Go code a node is
a struct whose `data` field is nil exactly for internal nodes; the code only
ever builds internal nodes with both children non-nil, so the embedding makes
the two children mandatory. -/
inductive Node where
  | leaf (data : List Char)
  | internal (l r : Node) (weight : Nat)
  deriving Repr, DecidableEq

/-- Error values produced by the buffer, one constructor per `fmt.Errorf`
site in rope.go. -/
inductive BufErr where
  /-- "cannot delete from empty buffer" -/
  | emptyBuffer
  /-- "cannot delete at start of document" -/
  | deleteAtStart
  /-- "nothing to delete at start of document" -/
  | nothingToDelete
  /-- "line %d is negative" -/
  | negLine (line : Int)
  /-- "line %d out of bounds (max line: %d)" -/
  | lineOutOfBounds (line maxLine : Int)
  /-- "line %d out of bounds: buffer is empty" -/
  | emptyForLine (line : Int)
  /-- "index %d out of bounds: buffer is empty" -/
  | indexEmpty (index : Int)
  /-- "index %d out of bounds (length %d)" -/
  | indexOutOfBounds (index : Int) (length : Nat)
  /-- "internal error: leaf index out of bounds" -/
  | leafIndexOOB
  /-- "invalid position (line %d, col %d): %w" -/
  | invalidPosition (line col : Int) (inner : BufErr)
  /-- "failed to get rune at delete position: %w" -/
  | runeAtFailed (inner : BufErr)
  deriving Repr, DecidableEq

namespace Node

/-- In-order concatenation of the leaves: the document text represented by a
node (`node.toString` in rope.go, which the code also reproduces through
`writeTo` into a `strings.Builder`). -/
def flatten : Node → List Char
  | .leaf d => d
  | .internal l r _ => l.flatten ++ r.flatten

/-- Mirrors `node.length()`: a leaf reports its data length, an internal node
reports its cached weight plus the right child's length. -/
def length : Node → Nat
  | .leaf d => d.length
  | .internal _ r w => w + r.length

/-- Mirrors `node.insert`.  Go's slice expression
`append(n.data[:index], append([]rune{ru}, n.data[index:]...)...)` is
`take index ++ ru :: drop index` (every reachable call has
`index ≤ len(data)`, where the two agree with Go; Go would panic beyond). -/
def insert : Node → Nat → Char → Node
  | .leaf d, index, ru =>
    let d' := d.take index ++ ru :: d.drop index
    if d'.length > maxLeafSize then
      let mid := d'.length / 2
      let leftData := d'.take mid
      let rightData := d'.drop mid
      .internal (.leaf leftData) (.leaf rightData) leftData.length
    else .leaf d'
  | .internal l r w, index, ru =>
    if index < w then .internal (l.insert index ru) r (w + 1)
    else .internal l (r.insert (index - w) ru) w

/-- Mirrors `node.delete`.  Go's `append(n.data[:index], n.data[index+1:]...)`
is `take index ++ drop (index+1)`; the promotion of a sibling when a child's
length reaches zero is the simplified rebalancing rule of the source.  Every
reachable call has `index < weight → weight ≥ 1`, so the `Nat` subtraction
`w - 1` agrees with Go's `n.weight--`. -/
def delete : Node → Nat → Node
  | .leaf d, index => .leaf (d.take index ++ d.drop (index + 1))
  | .internal l r w, index =>
    let t := if index < w then (l.delete index, r, w - 1)
             else (l, r.delete (index - w), w)
    if t.1.length = 0 then t.2.1
    else if t.2.1.length = 0 then t.1
    else .internal t.1 t.2.1 t.2.2

/-- Mirrors `node.runeAt`.  The Go nil-child error branches cannot arise in the
embedding because internal nodes always carry both children; the leaf bounds
check is kept (its `index < 0` half is vacuous for `Nat`). -/
def runeAt : Node → Nat → Except BufErr Char
  | .leaf d, index =>
    if index < d.length then .ok (d.getD index default) else .error .leafIndexOOB
  | .internal l r w, index =>
    if index < w then l.runeAt index else r.runeAt (index - w)

/-- Mirrors `node.sliceHelper`, with the `strings.Builder` accumulator passed
as a list.  Go's `max(0, startIndex-leafStart)` and the comparison against a
possibly negative `endIndex-leafStart` coincide with truncated `Nat`
subtraction. -/
def sliceHelper : Node → Nat → Nat → Nat → List Char → List Char
  | .leaf d, st, en, off, acc =>
    let sliceStart := st - off
    let sliceEnd := min d.length (en - off)
    if sliceStart < sliceEnd then acc ++ (d.drop sliceStart).take (sliceEnd - sliceStart)
    else acc
  | .internal l r w, st, en, off, acc =>
    let leftEnd := off + w
    let acc1 := if st < leftEnd ∧ off < en then l.sliceHelper st en off acc else acc
    if en > leftEnd ∧ leftEnd < en then r.sliceHelper st en leftEnd acc1 else acc1

/-- Mirrors `node.writeTo` for an abstract sink.  The sink is a function
`σ → List Char → σ × Nat × Option ε` (state, count written, optional error).
On a left-subtree error Go returns the local `total`, which is still `0`;
on a right-subtree error it returns the left subtree's total only. -/
def writeTo {σ ε : Type} (wr : σ → List Char → σ × Nat × Option ε) :
    Node → σ → σ × Nat × Option ε
  | .leaf d, s => wr s d
  | .internal l r _, s =>
    match l.writeTo wr s with
    | (s1, _, some e) => (s1, 0, some e)
    | (s1, w1, none) =>
      match r.writeTo wr s1 with
      | (s2, _, some e) => (s2, w1, some e)
      | (s2, w2, none) => (s2, w1 + w2, none)

/-- The in-order list of leaf payloads: the exact sequence of chunks
`node.writeTo` hands to the sink. -/
def leaves : Node → List (List Char)
  | .leaf d => [d]
  | .internal l r _ => l.leaves ++ r.leaves

end Node

/-- Newline markers of a text placed at global offset `off`: for each `'\n'`
at absolute position `p` the entry `p + 1` (the start offset of the following
line).  This is the reference ("spec") description of the line index. -/
def marks : List Char → Nat → List Nat
  | [], _ => []
  | c :: t, off => if c = '\n' then (off + 1) :: marks t (off + 1) else marks t (off + 1)

/-- Reference line-start index of a text: offset 0 followed by the newline
markers.  `rebuildLineIndex` computes exactly this (proved below), and the
incremental updates are proved to preserve it. -/
def lineStartsOf (s : List Char) : List Nat := 0 :: marks s 0

/-- Mirrors `node.rebuildLineIndexHelper`: appends to `acc` the line starts
contributed by the subtree placed at global offset `offset`. -/
def Node.rebuildHelper : Node → Nat → List Nat → List Nat
  | .leaf d, off, acc => acc ++ marks d off
  | .internal l r w, off, acc => r.rebuildHelper (off + w) (l.rebuildHelper off acc)

/-- The rope (`Rope` in rope.go): optional root plus the line-start index. -/
structure Rope where
  root : Option Node
  lineStarts : List Nat
  deriving Repr, DecidableEq

/-- Mirrors `Rope.rebuildLineIndex`: start from `[0]` and traverse the tree. -/
def rebuildLineIndex (root : Option Node) : List Nat :=
  match root with
  | none => [0]
  | some n => n.rebuildHelper 0 [0]

/-- Mirrors `NewRope`: a single leaf holding the initial text, with the line
index built by `rebuildLineIndex`. -/
def NewRope (s : List Char) : Rope :=
  { root := some (.leaf s), lineStarts := rebuildLineIndex (some (.leaf s)) }

/-- Mirrors `sort.SearchInts`: the least index `i` with `a[i] ≥ x`, or
`a.length`.  The Go binary search assumes a sorted slice; on the sorted
`lineStarts` this linear characterisation is its exact result. -/
def searchInts (a : List Nat) (x : Nat) : Nat :=
  match a with
  | [] => 0
  | y :: t => if x ≤ y then 0 else searchInts t x + 1

/-- Mirrors `Rope.findLine`: the index of the line containing global offset
`index` (floor search on `lineStarts`). -/
def findLine (ls : List Nat) (index : Nat) : Nat :=
  let i := searchInts ls index
  if i = 0 then 0
  else if i < ls.length ∧ ls.getD i 0 = index then i
  else i - 1

namespace Rope

/-- Mirrors `Rope.getIndex`: translates `(line, col)` to a global offset.
Notes: Go's out-of-bounds branch returns the pair `(r.root.length(), err)`;
both callers discard the value when `err ≠ nil`, so `Except` keeps only the
error.  The column clamp to `[0, lineCharLength]` is verbatim. -/
def getIndex (r : Rope) (line col : Int) : Except BufErr Nat :=
  match r.root with
  | none =>
    if line = 0 ∧ col = 0 then .ok 0 else .error (.emptyForLine line)
  | some root =>
    if line < 0 then .error (.negLine line)
    else if (r.lineStarts.length : Int) ≤ line then
      .error (.lineOutOfBounds line ((r.lineStarts.length : Int) - 1))
    else
      let ln := line.toNat
      let startIndex := r.lineStarts.getD ln 0
      let lineCharLength : Nat :=
        if ln + 1 < r.lineStarts.length then r.lineStarts.getD (ln + 1) 0 - startIndex - 1
        else root.length - startIndex
      let c0 : Int := if col < 0 then 0 else col
      let c1 : Nat := if (lineCharLength : Int) < c0 then lineCharLength else c0.toNat
      .ok (startIndex + c1)

/-- Mirrors `Rope.updateLineIndexOnInsert`: shift the entries after the
affected line by +1 and, for a newline, insert the new line start. -/
def updateLineIndexOnInsert (ls : List Nat) (index : Nat) (ru : Char) : List Nat :=
  let line := findLine ls index
  if ru = '\n' then
    ls.take (line + 1) ++ (index + 1) :: (ls.drop (line + 1)).map (· + 1)
  else
    ls.take (line + 1) ++ (ls.drop (line + 1)).map (· + 1)

/-- Mirrors `Rope.updateLineIndexOnDelete`: for a deleted newline remove the
entry of the following line, then shift the entries after the affected line
by −1.  Every shifted entry is ≥ 1 in reachable states, so truncated `Nat`
subtraction agrees with Go. -/
def updateLineIndexOnDelete (ls : List Nat) (index : Nat) (ru : Char) : List Nat :=
  let line := findLine ls index
  if ru = '\n' then
    let ls1 := if line + 1 < ls.length then ls.take (line + 1) ++ ls.drop (line + 2) else ls
    ls1.take (line + 1) ++ (ls1.drop (line + 1)).map (· - 1)
  else
    ls.take (line + 1) ++ (ls.drop (line + 1)).map (· - 1)

/-- Mirrors `Rope.shouldRebalance`.  Go compares
`float64(max)/float64(min) > 3.0`; for the subtree sizes that occur in any
realistic document (far below 2^51) the `float64` comparison is exactly the
rational comparison `max > 3 * min`, which is how it is modelled.  (Every
theorem below is insensitive to the branch taken: rebalancing preserves the
content and rebuilds the index correctly.) -/
def shouldRebalance (r : Rope) : Bool :=
  match r.root with
  | none => false
  | some (.leaf _) => false
  | some (.internal l rr w) =>
    let leftLen := w
    let rightLen := (Node.internal l rr w).length - w
    if leftLen = 0 ∨ rightLen = 0 then false
    else 3 * min leftLen rightLen < max leftLen rightLen

/-- Mirrors `Rope.rebalance`: flatten to a string (via `writeTo` into a
builder, i.e. `flatten`), rebuild a single-leaf tree and the line index. -/
def rebalance (r : Rope) : Rope :=
  match r.root with
  | none => r
  | some rt =>
    let content := rt.flatten
    { root := some (.leaf content), lineStarts := rebuildLineIndex (some (.leaf content)) }

/-- Mirrors `Rope.Insert`.  Returns the updated rope and the optional error
(the Go method mutates its receiver and returns `error`). -/
def Insert (r : Rope) (line col : Int) (ru : Char) : Rope × Option BufErr :=
  let r0 := match r.root with
    | none => { r with root := some (.leaf []) }
    | some _ => r
  match r0.getIndex line col with
  | .error e => (r0, some (.invalidPosition line col e))
  | .ok index =>
    match r0.root with
    | none => (r0, none)   -- unreachable: r0.root is always some
    | some rt =>
      let r1 : Rope := { root := some (rt.insert index ru),
                         lineStarts := updateLineIndexOnInsert r0.lineStarts index ru }
      (if shouldRebalance r1 then rebalance r1 else r1, none)

/-- Mirrors `Rope.RuneAt`: bounds-checked global lookup. -/
def RuneAt (r : Rope) (index : Int) : Except BufErr Char :=
  match r.root with
  | none => .error (.indexEmpty index)
  | some rt =>
    let length := rt.length
    if index < 0 ∨ (length : Int) ≤ index then .error (.indexOutOfBounds index length)
    else rt.runeAt index.toNat

/-- Mirrors `Rope.Delete` (backspace semantics: removes the character before
`(line, col)`).  All error branches precede any mutation. -/
def Delete (r : Rope) (line col : Int) : Rope × Option BufErr :=
  match r.root with
  | none => (r, some .emptyBuffer)
  | some rt =>
    if col = 0 ∧ line = 0 then (r, some .deleteAtStart)
    else
      match r.getIndex line col with
      | .error e => (r, some (.invalidPosition line col e))
      | .ok index =>
        if index = 0 then (r, some .nothingToDelete)
        else
          let deleteIndex := index - 1
          match r.RuneAt (deleteIndex : Int) with
          | .error e => (r, some (.runeAtFailed e))
          | .ok ru =>
            let r1 : Rope := { root := some (rt.delete deleteIndex),
                               lineStarts := updateLineIndexOnDelete r.lineStarts deleteIndex ru }
            (if shouldRebalance r1 then rebalance r1 else r1, none)

/-- Mirrors `Rope.LineCount`. -/
def LineCount (r : Rope) : Nat :=
  if r.lineStarts.length = 0 then 1 else r.lineStarts.length

/-- Mirrors `Rope.sliceRuneAt` (same checks as `RuneAt`, different error
message for the empty buffer). -/
def sliceRuneAt (r : Rope) (index : Int) : Except BufErr Char :=
  match r.root with
  | none => .error .emptyBuffer
  | some rt =>
    let length := rt.length
    if index < 0 ∨ (length : Int) ≤ index then .error (.indexOutOfBounds index length)
    else rt.runeAt index.toNat

/-- Mirrors `Rope.slice`. -/
def slice (r : Rope) (st en : Nat) : List Char :=
  match r.root with
  | none => []
  | some root => if en ≤ st then [] else root.sliceHelper st en 0 []

/-- Mirrors `Rope.GetLine`: bounds the slice between consecutive line starts,
trims a trailing `'\n'` and an optional preceding `'\r'`. -/
def GetLine (r : Rope) (line : Int) : List Char :=
  match r.root with
  | none => []
  | some root =>
    if line < 0 ∨ (r.lineStarts.length : Int) ≤ line then []
    else
      let ln := line.toNat
      let startIndex := r.lineStarts.getD ln 0
      let endIndex0 :=
        if ln + 1 < r.lineStarts.length then r.lineStarts.getD (ln + 1) 0 else root.length
      let lastIsNL : Bool := decide (startIndex < endIndex0) &&
        (match r.sliceRuneAt ((endIndex0 : Int) - 1) with
         | .ok c => c = '\n'
         | .error _ => false)
      let endIndex1 := if lastIsNL then endIndex0 - 1 else endIndex0
      let prevIsCR : Bool := lastIsNL && decide (startIndex < endIndex1) &&
        (match r.sliceRuneAt ((endIndex1 : Int) - 1) with
         | .ok c => c = '\r'
         | .error _ => false)
      let endIndex2 := if prevIsCR then endIndex1 - 1 else endIndex1
      r.slice startIndex endIndex2

/-- Mirrors `Rope.WriteTo` for an abstract sink. -/
def WriteTo {σ ε : Type} (wr : σ → List Char → σ × Nat × Option ε) (r : Rope) (s : σ) :
    σ × Nat × Option ε :=
  match r.root with
  | none => (s, 0, none)
  | some n => n.writeTo wr s

/-- The document content of a rope (empty for a nil root). -/
def contentOf (r : Rope) : List Char :=
  match r.root with
  | none => []
  | some n => n.flatten

end Rope

/-- A sink that accepts everything: used to observe the plain output of
`WriteTo`.  Its state collects the characters written. -/
def sinkOK (s : List Char) (d : List Char) : List Char × Nat × Option Unit :=
  (s ++ d, d.length, none)

/-- Reference model of writing a chunk sequence to a sink, accumulating the
honest total of characters accepted (including the count reported by a
failing call) and stopping at the first error. -/
def writeChunks {σ ε : Type} (wr : σ → List Char → σ × Nat × Option ε) :
    List (List Char) → σ → σ × Nat × Option ε
  | [], s => (s, 0, none)
  | c :: t, s =>
    match wr s c with
    | (s1, n1, some e) => (s1, n1, some e)
    | (s1, n1, none) =>
      let r := writeChunks wr t s1
      (r.1, n1 + r.2.1, r.2.2)

/-! ## Editor embedding

The editor (`editor/main.go`, `editor/input.go`, `editor/text_manipulation.go`,
`editor/render.go`) is embedded with every field that the modelled functions
read or write.  External collaborators are modelled as pure state:

* the OS clipboard becomes the field `clipboard` (reads and writes always
  succeed);
* file I/O in `save` always succeeds and the SHA-256 content hash
  (`calculateBufferHash`) is modelled by the content itself, an injective
  stand-in;
* `time.Now()` is hoisted into a `now : Nat` parameter of `handleKey`
  (milliseconds); the threshold fields, set once in `NewEditor`, are
  constants;
* render-only fields (viewport, terminal size, `statusTime`) are omitted;
* Go's Unicode classifier functions (`unicode.IsLetter` …,
  `strings.ToLower` …) are modelled by the corresponding `Char` functions,
  which agree on ASCII. -/

/-- One character-level operation record (`opEntry` in editor/main.go). -/
structure OpEntry where
  insertLine : Int := 0
  insertCol : Int := 0
  delLine : Int := 0
  delCol : Int := 0
  r : Char := default
  deriving Repr, DecidableEq

/-- A group of operations undone/redone atomically (`undoAction`). -/
structure UndoAction where
  isInsert : Bool := false
  ops : List OpEntry := []
  groupID : Nat := 0
  isBackspace : Bool := false
  deriving Repr, DecidableEq

/-- The editor state (`Editor` in editor/main.go), restricted to the fields
the embedded functions touch. -/
structure Editor where
  buffer : Rope
  cursorX : Int := 0
  cursorY : Int := 0
  extraCursorHeight : Int := 0
  dirty : Bool := false
  initialHash : List Char := []
  statusMessage : String := ""
  quit : Bool := false
  isQuitting : Bool := false
  undoStack : List UndoAction := []
  redoStack : List UndoAction := []
  selectionActive : Bool := false
  selectionAnchorX : Int := 0
  selectionAnchorY : Int := 0
  undoGrouping : Bool := false
  currentGroupID : Nat := 0
  lastGroupID : Nat := 1
  typingEntries : List OpEntry := []
  typingActive : Bool := false
  lastTypeTime : Nat := 0
  backspaceEntries : List OpEntry := []
  backspaceActive : Bool := false
  lastBackspaceTime : Nat := 0
  deleteEntries : List OpEntry := []
  deleteActive : Bool := false
  lastDeleteTime : Nat := 0
  showLineNumbers : Bool := false
  showNonPrintable : Bool := false
  isGotoLine : Bool := false
  promptBuffer : List Char := []
  promptCursorX : Int := 0
  replaceBuffer : List Char := []
  replaceCursorX : Int := 0
  promptFocus : Nat := 0
  isConfirmingReplace : Bool := false
  isFinding : Bool := false
  isReplacing : Bool := false
  lastSearchQuery : List Char := []
  findOrigCursorX : Int := 0
  findOrigCursorY : Int := 0
  findMatches : List (Int × Int) := []
  findCurrentMatch : Int := 0
  lineNumWidth : Int := 5
  isSaveAs : Bool := false
  filename : List Char := []
  clipboard : List Char := []
  deriving Repr, DecidableEq

/-- The three grouping thresholds, all set to 900ms in `NewEditor`. -/
def typeGroupThreshold : Nat := 900

/-- Models the state-relevant part of `NewEditor` for an in-memory document
(terminal setup and file loading are external). -/
def mkEditor (content : List Char) : Editor :=
  { buffer := NewRope content, initialHash := content }

/-- Ascending Go loop range `for i := lo; i <= hi; i++`. -/
def ascRange (lo hi : Int) : List Int :=
  (List.range (hi + 1 - lo).toNat).map (fun k => lo + k)

/-- Descending Go loop range `for i := hi; i >= lo; i--`. -/
def descRange (hi lo : Int) : List Int := (ascRange lo hi).reverse

/-- Indexing a rune slice at a (non-negative in every reachable call)
`Int` index. -/
def getAtI (l : List Char) (i : Int) : Char :=
  if i < 0 then default else l.getD i.toNat default

namespace Editor

/-- Mirrors `setStatusMessage` (the `statusTime` timestamp is render-only
and omitted). -/
def setStatusMessage (E : Editor) (msg : String) : Editor :=
  { E with statusMessage := msg }

/-- Mirrors `beginUndoGroup`. -/
def beginUndoGroup (E : Editor) : Editor :=
  { E with undoGrouping := true, currentGroupID := E.lastGroupID,
           lastGroupID := E.lastGroupID + 1 }

/-- Mirrors `endUndoGroup`. -/
def endUndoGroup (E : Editor) : Editor := { E with undoGrouping := false }

/-- Mirrors `pushUndoInsertBlock`. -/
def pushUndoInsertBlock (E : Editor) (entries : List OpEntry) : Editor :=
  if entries = [] then E
  else
    let action : UndoAction :=
      { isInsert := true, ops := entries,
        groupID := if E.undoGrouping then E.currentGroupID else 0 }
    { E with undoStack := E.undoStack ++ [action] }

/-- Mirrors `pushUndoDeleteBlock`. -/
def pushUndoDeleteBlock (E : Editor) (entries : List OpEntry) (isBackspace : Bool) : Editor :=
  if entries = [] then E
  else
    let action : UndoAction :=
      { isInsert := false, isBackspace := isBackspace, ops := entries,
        groupID := if E.undoGrouping then E.currentGroupID else 0 }
    { E with undoStack := E.undoStack ++ [action] }

/-- Mirrors `pushUndoDeleteIfExternalGrouping` (text_manipulation.go). -/
def pushUndoDeleteIfExternalGrouping (E : Editor) (line col : Int) (r : Char) : Editor :=
  let action : UndoAction :=
    { isInsert := false, ops := [{ insertLine := line, insertCol := col, r := r }],
      groupID := if E.undoGrouping then E.currentGroupID else 0 }
  { E with undoStack := E.undoStack ++ [action] }

/-- Mirrors `flushTypingGroup`. -/
def flushTypingGroup (E : Editor) : Editor :=
  if ¬E.typingActive then E
  else
    let E := if E.typingEntries ≠ [] then E.pushUndoInsertBlock E.typingEntries else E
    { E with typingEntries := [], typingActive := false }

/-- Mirrors `flushBackspaceGroup`. -/
def flushBackspaceGroup (E : Editor) : Editor :=
  if ¬E.backspaceActive then E
  else
    let E := if E.backspaceEntries ≠ [] then E.pushUndoDeleteBlock E.backspaceEntries true else E
    { E with backspaceEntries := [], backspaceActive := false }

/-- Mirrors `flushDeleteGroup`. -/
def flushDeleteGroup (E : Editor) : Editor :=
  if ¬E.deleteActive then E
  else
    let E := if E.deleteEntries ≠ [] then E.pushUndoDeleteBlock E.deleteEntries false else E
    { E with deleteEntries := [], deleteActive := false }

/-- Mirrors `flushTypingAndBackspaceIfNeeded`. -/
def flushTypingAndBackspaceIfNeeded (E : Editor) : Editor :=
  E.flushTypingGroup.flushBackspaceGroup

/-- Mirrors `flushEditGroups`. -/
def flushEditGroups (E : Editor) : Editor :=
  E.flushTypingGroup.flushBackspaceGroup.flushDeleteGroup

/-- Mirrors `getRuneAt` (unnamed editor helper file): rune at `(y, x)` or the
zero rune. -/
def getRuneAt (E : Editor) (y x : Int) : Char :=
  if (E.buffer.LineCount : Int) ≤ y then Char.ofNat 0
  else
    let line := E.buffer.GetLine y
    if (line.length : Int) ≤ x then Char.ofNat 0
    else getAtI line x

/-- Mirrors `getMultiCursorRange`. -/
def getMultiCursorRange (E : Editor) : Int × Int :=
  if E.extraCursorHeight = 0 then (E.cursorY, E.cursorY)
  else if 0 < E.extraCursorHeight then (E.cursorY, E.cursorY + E.extraCursorHeight)
  else (E.cursorY + E.extraCursorHeight, E.cursorY)

/-- Mirrors `clampCursorX`. -/
def clampCursorX (E : Editor) : Editor :=
  let lineLen : Int :=
    if E.cursorY < (E.buffer.LineCount : Int) then (E.buffer.GetLine E.cursorY).length else 0
  if lineLen < E.cursorX then { E with cursorX := lineLen } else E

/-- The replay loop of `performUndo` for an insert action: delete each
recorded rune at its recorded del position, in reverse insertion order, with
the `Delete` error discarded exactly as in the source. -/
def replayDeleteAtDel (E : Editor) (ops : List OpEntry) : Editor :=
  match ops with
  | [] => E
  | op :: t => replayDeleteAtDel { E with buffer := (E.buffer.Delete op.delLine op.delCol).1 } t

/-- The replay loop of `performUndo` for a delete action: re-insert each
recorded rune at its original position, in forward order, with the `Insert`
error discarded exactly as in the source. -/
def replayInsertAtOrig (E : Editor) (ops : List OpEntry) : Editor :=
  match ops with
  | [] => E
  | op :: t =>
    replayInsertAtOrig { E with buffer := (E.buffer.Insert op.insertLine op.insertCol op.r).1 } t

/-- The replay loop of `performRedo` for a delete action: delete each recorded
rune at `(insertLine, insertCol + 1)`, in reverse order, errors discarded. -/
def replayDeleteAtOrig (E : Editor) (ops : List OpEntry) : Editor :=
  match ops with
  | [] => E
  | op :: t =>
    replayDeleteAtOrig { E with buffer := (E.buffer.Delete op.insertLine (op.insertCol + 1)).1 } t

/-- Mirrors `performUndo` (editor/main.go).  Exactly as in the source, the
error returned by each replayed `Delete`/`Insert` is discarded and the loop
continues with the next record. -/
def performUndo (E : Editor) (action : UndoAction) : Editor :=
  if action.isInsert then
    -- delete inserted runes in reverse order using the recorded del positions
    let E1 := replayDeleteAtDel E action.ops.reverse
    let E2 := match action.ops with
      | [] => E1
      | op0 :: _ => { E1 with cursorY := op0.insertLine, cursorX := op0.insertCol }
    { E2 with dirty := true }
  else
    -- re-insert deleted runes in forward order at their original positions
    let E1 := replayInsertAtOrig E action.ops
    let E2 :=
      match action.ops with
      | [] => E1
      | op0 :: _ =>
        if action.isBackspace then
          match action.ops.getLast? with
          | none => E1
          | some last =>
            if last.r = '\n' then { E1 with cursorY := last.insertLine + 1, cursorX := 0 }
            else { E1 with cursorY := last.insertLine, cursorX := last.insertCol + 1 }
        else { E1 with cursorY := op0.insertLine, cursorX := op0.insertCol }
    { E2 with dirty := true }

/-- Mirrors `performRedo` (editor/main.go); replay errors are discarded
exactly as in the source. -/
def performRedo (E : Editor) (action : UndoAction) : Editor :=
  if action.isInsert then
    let E1 := replayInsertAtOrig E action.ops
    let E2 := match action.ops.getLast? with
      | none => E1
      | some last =>
        if last.r = '\n' then { E1 with cursorY := last.insertLine + 1, cursorX := 0 }
        else { E1 with cursorY := last.insertLine, cursorX := last.insertCol + 1 }
    { E2 with dirty := true }
  else
    let E1 := replayDeleteAtOrig E action.ops.reverse
    let E2 := match action.ops with
      | [] => E1
      | op0 :: _ => { E1 with cursorY := op0.insertLine, cursorX := op0.insertCol }
    { E2 with dirty := true }

/-- The grouped-undo loop inside `undo()`: keep popping while the next top
action carries the same nonzero `groupID`.  The `fuel` parameter is the stack
height at entry: each iteration pops exactly one action (`performUndo` never
touches the stacks, proved in `performUndo_undoStack` below), so the loop in
the source makes at most that many iterations. -/
def undoGroupLoop : Nat → Nat → Editor → Editor
  | 0, _, E => E
  | fuel + 1, gid, E =>
    match E.undoStack.getLast? with
    | none => E
    | some next =>
      if next.groupID = gid then
        undoGroupLoop fuel gid
          (Editor.performUndo
            { E with undoStack := E.undoStack.dropLast,
                     redoStack := E.redoStack ++ [next] } next)
      else E

/-- The grouped-redo loop inside `redo()`, with the same fuel convention. -/
def redoGroupLoop : Nat → Nat → Editor → Editor
  | 0, _, E => E
  | fuel + 1, gid, E =>
    match E.redoStack.getLast? with
    | none => E
    | some next =>
      if next.groupID = gid then
        redoGroupLoop fuel gid
          (Editor.performRedo
            { E with redoStack := E.redoStack.dropLast,
                     undoStack := E.undoStack ++ [next] } next)
      else E

/-- Mirrors `undo()` (editor/main.go). -/
def undo (E : Editor) : Editor :=
  let E := E.flushEditGroups
  match E.undoStack.getLast? with
  | none => E.setStatusMessage "Nothing to undo"
  | some action =>
    let E := { E with undoStack := E.undoStack.dropLast,
                      redoStack := E.redoStack ++ [action] }
    let E := E.performUndo action
    let E := if 0 < action.groupID then undoGroupLoop E.undoStack.length action.groupID E else E
    E.setStatusMessage "Undid last action"

/-- Mirrors `redo()` (editor/main.go). -/
def redo (E : Editor) : Editor :=
  let E := E.flushEditGroups
  match E.redoStack.getLast? with
  | none => E.setStatusMessage "Nothing to redo"
  | some action =>
    let E := { E with redoStack := E.redoStack.dropLast,
                      undoStack := E.undoStack ++ [action] }
    let E := E.performRedo action
    let E := if 0 < action.groupID then redoGroupLoop E.redoStack.length action.groupID E else E
    E.setStatusMessage "Redid last action"

end Editor

/-- Bool test that `pat` is an initial segment of the second list (used to
model `strings.Index`/`strings.ReplaceAll`). -/
def startsWithL : List Char → List Char → Bool
  | [], _ => true
  | _ :: _, [] => false
  | p :: ps, c :: cs => p == c && startsWithL ps cs

/-- Models `strings.ReplaceAll` on rune sequences.  The patterns used by the
editor (`"\n"`, `"\r"`, `"\r\n"`) are never empty; for an empty pattern the
model returns the input unchanged. -/
def replaceAllL : List Char → List Char → List Char → List Char
  | s, [], _ => s
  | [], _ :: _, _ => []
  | c :: t, p :: ps, rep =>
    if startsWithL (p :: ps) (c :: t) then
      rep ++ replaceAllL ((c :: t).drop (p :: ps).length) (p :: ps) rep
    else c :: replaceAllL t (p :: ps) rep
termination_by s _ _ => s.length
decreasing_by
  · simp only [List.length_cons, List.length_drop]
    omega
  · simp only [List.length_cons]
    omega

/-- Models `strings.ToLower` (agrees with Go on ASCII, the only characters in
the scenarios below). -/
def toLowerL (s : List Char) : List Char := s.map Char.toLower

/-- Models `strings.ToUpper` (agrees with Go on ASCII). -/
def toUpperL (s : List Char) : List Char := s.map Char.toUpper

/-- Mirrors `isWordChar` (editor/main.go); `unicode.IsLetter`/`IsNumber`
modelled by the ASCII-faithful `Char` classifiers. -/
def isWordChar (r : Char) : Bool := r.isAlpha || r.isDigit || r == '_'

/-- Mirrors `isPunctChar`; `unicode.IsSpace` modelled by
`Char.isWhitespace`. -/
def isPunctChar (r : Char) : Bool := !isWordChar r && !r.isWhitespace

/-- A Go loop `for x >= 0 && pred(runes[x]) { x-- }`: the final value of
`x`. -/
def scanLeftWhile (p : Char → Bool) (runes : List Char) (x : Int) : Int :=
  if h : 0 ≤ x ∧ p (getAtI runes x) then scanLeftWhile p runes (x - 1) else x
termination_by (x + 1).toNat
decreasing_by omega

/-- A Go loop `for start > 0 && pred(runes[start-1]) { start-- }`. -/
def scanStartWhile (p : Char → Bool) (runes : List Char) (start : Int) : Int :=
  if h : 0 < start ∧ p (getAtI runes (start - 1)) then scanStartWhile p runes (start - 1)
  else start
termination_by start.toNat
decreasing_by omega

/-- A Go loop `for end < len(runes) && pred(runes[end]) { end++ }`. -/
def scanEndWhile (p : Char → Bool) (runes : List Char) (en : Int) : Int :=
  if h : en < (runes.length : Int) ∧ p (getAtI runes en) then scanEndWhile p runes (en + 1)
  else en
termination_by ((runes.length : Int) - en).toNat
decreasing_by omega

/-- Models `strings.Index` on rune sequences: the position of the first
occurrence of `pat` in `hay`, if any.  (Go returns a byte index of a string
built from a rune slice; on the ASCII data of the editor's searches the two
coincide, and the editor's callers use it as a rune index.) -/
def subIdx : List Char → List Char → Option Nat
  | hay, pat =>
    if startsWithL pat hay then some 0
    else
      match hay with
      | [] => none
      | _ :: t => (subIdx t pat).map (· + 1)
termination_by hay _ => hay.length

namespace Editor

/-- Mirrors the inner match loop of `findAllMatches` for one line. -/
def lineMatchesAux (lineRunes q : List Char) (y : Int) (offset : Nat) : List (Int × Int) :=
  match subIdx (lineRunes.drop offset) q with
  | none => []
  | some mi =>
    let matchX := offset + mi
    (y, (matchX : Int)) ::
      (if lineRunes.length ≤ matchX + 1 then []
       else lineMatchesAux lineRunes q y (matchX + 1))
termination_by lineRunes.length - offset
decreasing_by omega

/-- Mirrors `findAllMatches` (editor/input.go). -/
def findAllMatches (E : Editor) (query : List Char) : Editor :=
  let E := { E with findMatches := [] }
  if query = [] then E
  else
    let queryLower := toLowerL query
    let ms := (ascRange 0 ((E.buffer.LineCount : Int) - 1)).foldl
      (fun acc y => acc ++ lineMatchesAux (toLowerL (E.buffer.GetLine y)) queryLower y 0) []
    { E with findMatches := ms }

/-- Mirrors `jumpToMatch`. -/
def jumpToMatch (E : Editor) (index : Int) : Editor :=
  if index < 0 ∨ (E.findMatches.length : Int) ≤ index then { E with selectionActive := false }
  else
    let m := E.findMatches.getD index.toNat (0, 0)
    { E with cursorY := m.1, cursorX := m.2 + (E.promptBuffer.length : Int),
             selectionActive := true, selectionAnchorY := m.1, selectionAnchorX := m.2 }

/-- Mirrors `findInitial`. -/
def findInitial (E : Editor) : Editor :=
  let E : Editor := E.findAllMatches E.promptBuffer
  if E.findMatches = [] then { E with findCurrentMatch := -1, selectionActive := false }
  else
    -- the source uses a -1 sentinel for "no match after the cursor";
    -- `none` plays that role here, with the same two outcomes
    let fo := E.findMatches.findIdx?
      (fun m => decide (E.findOrigCursorY < m.1) ||
        (m.1 == E.findOrigCursorY && decide (E.findOrigCursorX ≤ m.2)))
    let E : Editor := match fo with
      | some i => { E with findCurrentMatch := (i : Int) }
      | none => { E with findCurrentMatch := 0 }
    E.jumpToMatch E.findCurrentMatch

/-- Mirrors `getSelectionCoords` (editor/render.go). -/
def getSelectionCoords (E : Editor) : Int × Int × Int × Int :=
  if E.selectionAnchorY < E.cursorY ∨
     (E.selectionAnchorY = E.cursorY ∧ E.selectionAnchorX < E.cursorX) then
    (E.selectionAnchorY, E.selectionAnchorX, E.cursorY, E.cursorX)
  else (E.cursorY, E.cursorX, E.selectionAnchorY, E.selectionAnchorX)

/-- Mirrors `getSelectedText` (editor/text_manipulation.go). -/
def getSelectedText (E : Editor) : List Char :=
  if ¬E.selectionActive then []
  else
    let c := E.getSelectionCoords
    let startY := c.1
    let startX := c.2.1
    let endY := c.2.2.1
    let endX := c.2.2.2
    if startY = endY then
      let runes := E.buffer.GetLine startY
      let endX' := if (runes.length : Int) < endX then (runes.length : Int) else endX
      let startX' := if (runes.length : Int) < startX then (runes.length : Int) else startX
      (runes.drop startX'.toNat).take (endX' - startX').toNat
    else
      let firstRunes := E.buffer.GetLine startY
      let part1 := if startX < (firstRunes.length : Int) then firstRunes.drop startX.toNat else []
      let middle := (ascRange (startY + 1) (endY - 1)).foldl
        (fun acc y => acc ++ E.buffer.GetLine y ++ ['\n']) []
      let lastRunes := E.buffer.GetLine endY
      let endX' := if (lastRunes.length : Int) < endX then (lastRunes.length : Int) else endX
      part1 ++ ['\n'] ++ middle ++ lastRunes.take endX'.toNat

/-- Mirrors `deleteSelectedText` (editor/text_manipulation.go): collect the
operation records first, then splice the selection out of the buffer with
repeated single-character `Delete` calls (whose errors the source discards). -/
def deleteSelectedText (E : Editor) : Editor :=
  if ¬E.selectionActive then E
  else
    let c := E.getSelectionCoords
    let startY := c.1
    let startX := c.2.1
    let endY := c.2.2.1
    let endX := c.2.2.2
    let E := E.flushTypingAndBackspaceIfNeeded
    if startY = endY then
      let runes := E.buffer.GetLine startY
      let actualEndX := if (runes.length : Int) < endX then (runes.length : Int) else endX
      let entries := (ascRange startX (actualEndX - 1)).map
        (fun i => ({ insertLine := startY, insertCol := i, r := getAtI runes i } : OpEntry))
      let buf1 := (descRange (actualEndX - 1) startX).foldl
        (fun b i => (Rope.Delete b startY (i + 1)).1) E.buffer
      let E := { E with buffer := buf1 }
      let E := E.pushUndoDeleteBlock entries false
      { E with cursorY := startY, cursorX := startX, selectionActive := false }
    else
      let firstRunes := E.buffer.GetLine startY
      let entries1 := (ascRange startX ((firstRunes.length : Int) - 1)).map
        (fun i => ({ insertLine := startY, insertCol := i, r := getAtI firstRunes i } : OpEntry))
        ++ [{ insertLine := startY, insertCol := (firstRunes.length : Int), r := '\n' }]
      -- middle lines, carrying Go's `lineOffset` counter (starts at 1)
      let ml := (ascRange (startY + 1) (endY - 1)).foldl
        (fun (p : List OpEntry × Int) y =>
          let lineRunes := E.buffer.GetLine y
          let actualInsertLine := startY + p.2
          (p.1 ++ (ascRange 0 ((lineRunes.length : Int) - 1)).map
              (fun i =>
                ({ insertLine := actualInsertLine, insertCol := i,
                   r := getAtI lineRunes i } : OpEntry))
            ++ [{ insertLine := actualInsertLine, insertCol := (lineRunes.length : Int),
                  r := '\n' }],
           p.2 + 1)) ([], 1)
      let lastRunes := E.buffer.GetLine endY
      let actualEndX := if (lastRunes.length : Int) < endX then (lastRunes.length : Int) else endX
      let actualInsertLine := startY + ml.2
      let entries3 := (ascRange 0 (actualEndX - 1)).map
        (fun i => ({ insertLine := actualInsertLine, insertCol := i,
                     r := getAtI lastRunes i } : OpEntry))
      let entries := entries1 ++ ml.1 ++ entries3
      let buf1 := (descRange (actualEndX - 1) 0).foldl
        (fun b i => (Rope.Delete b endY (i + 1)).1) E.buffer
      let buf2 := (descRange (endY - 1) (startY + 1)).foldl
        (fun b y =>
          let b := (Rope.Delete b (y + 1) 0).1
          let lineRunes := Rope.GetLine b y
          (descRange ((lineRunes.length : Int) - 1) 0).foldl
            (fun b i => (Rope.Delete b y (i + 1)).1) b) buf1
      let buf3 := (Rope.Delete buf2 (startY + 1) 0).1
      let buf4 := (descRange ((firstRunes.length : Int) - 1) startX).foldl
        (fun b i => (Rope.Delete b startY (i + 1)).1) buf3
      let E := { E with buffer := buf4 }
      let E := E.pushUndoDeleteBlock entries false
      { E with cursorY := startY, cursorX := startX, selectionActive := false }

/-- Mirrors `deleteCurrentLine`. -/
def deleteCurrentLine (E : Editor) : Editor :=
  let E := E.flushTypingAndBackspaceIfNeeded
  let lineIdx := E.cursorY
  let lineRunes := E.buffer.GetLine lineIdx
  let entries := (ascRange 0 ((lineRunes.length : Int) - 1)).map
    (fun i => ({ insertLine := lineIdx, insertCol := i, r := getAtI lineRunes i } : OpEntry))
  let entries :=
    if E.cursorY < (E.buffer.LineCount : Int) - 1 then
      entries ++ [{ insertLine := lineIdx, insertCol := (lineRunes.length : Int), r := '\n' }]
    else entries
  let buf1 := (descRange ((lineRunes.length : Int) - 1) 0).foldl
    (fun b i => (Rope.Delete b lineIdx (i + 1)).1) E.buffer
  let E := { E with buffer := buf1 }
  let E :=
    if E.cursorY < (E.buffer.LineCount : Int) - 1 then
      { E with buffer := (E.buffer.Delete (E.cursorY + 1) 0).1 }
    else E
  let E := E.pushUndoDeleteBlock entries false
  let E := { E with cursorX := 0 }
  if ((E.buffer.LineCount : Int) ≤ E.cursorY ∧ 0 < E.cursorY : Prop) then
    { E with cursorY := E.cursorY - 1,
             cursorX := ((E.buffer.GetLine (E.cursorY - 1)).length : Int) }
  else E

/-- The per-character loop of `insertString`: insert (error discarded by the
source), advance the cursor, record the entry with the post-insertion
position. -/
def insertStringLoop (E : Editor) (chars : List Char) (entries : List OpEntry) :
    Editor × List OpEntry :=
  match chars with
  | [] => (E, entries)
  | ch :: t =>
    let insertLine := E.cursorY
    let insertCol := E.cursorX
    let E := { E with buffer := (E.buffer.Insert E.cursorY E.cursorX ch).1 }
    let E := if ch = '\n' then { E with cursorY := E.cursorY + 1, cursorX := 0 }
             else { E with cursorX := E.cursorX + 1 }
    insertStringLoop E t
      (entries ++ [{ insertLine := insertLine, insertCol := insertCol,
                     delLine := E.cursorY, delCol := E.cursorX, r := ch }])

/-- Mirrors `insertString` (editor/text_manipulation.go). -/
def insertString (E : Editor) (s : List Char) : Editor :=
  if s = [] then E
  else
    let began := ¬E.undoGrouping
    let E := if began then E.beginUndoGroup else E
    let p := insertStringLoop E s []
    let E := p.1.pushUndoInsertBlock p.2
    let E := { E with dirty := true }
    if began then E.endUndoGroup else E

/-- Mirrors `selectAll` (editor/render.go). -/
def selectAll (E : Editor) : Editor :=
  if E.buffer.LineCount = 0 then E
  else
    let lastLine := (E.buffer.LineCount : Int) - 1
    let lastLineContent := E.buffer.GetLine lastLine
    ({ E with selectionActive := true, selectionAnchorX := 0, selectionAnchorY := 0,
              cursorY := lastLine,
              cursorX := (lastLineContent.length : Int) }).setStatusMessage "Selected all text"

/-- Models `calculateBufferHash`: SHA-256 of the content, abstracted by the
content itself (an injective stand-in; the hashing `WriteTo` never fails in
the model). -/
def calculateBufferHash (E : Editor) : List Char := E.buffer.contentOf

/-- Mirrors `isContentUnchanged`. -/
def isContentUnchanged (E : Editor) : Bool := E.calculateBufferHash == E.initialHash

/-- Mirrors `save` with the file I/O (an external collaborator) modelled as
succeeding and writing the whole content. -/
def save (E : Editor) : Editor :=
  if E.filename = [] then
    { E with isSaveAs := true, promptBuffer := [], statusMessage := "Save As: " }
  else
    let n := E.buffer.contentOf.length
    let E := { E with dirty := false }
    let E := { E with initialHash := E.calculateBufferHash }
    E.setStatusMessage (toString n ++ " bytes written")

/-- Models `setClipboardText` (Windows clipboard API, an external
collaborator): store the text, always succeed. -/
def setClipboardText (E : Editor) (text : List Char) : Editor := { E with clipboard := text }

/-- Mirrors `copyToClipboard` (editor/render.go). -/
def copyToClipboard (E : Editor) : Editor :=
  let content := E.getSelectedText
  let content := if content = [] then E.buffer.GetLine E.cursorY ++ ['\n'] else content
  let content := replaceAllL content ['\n'] ['\r', '\n']
  (E.setClipboardText content).setStatusMessage "Copied to clipboard"

/-- Mirrors `cutToClipboard` (editor/render.go).  Note that, matching the
source, it never clears `redoStack`. -/
def cutToClipboard (E : Editor) : Editor :=
  let E := E.flushTypingAndBackspaceIfNeeded
  let content := E.getSelectedText
  let p :=
    if content = [] then
      ((((E.beginUndoGroup).deleteCurrentLine).endUndoGroup),
       E.buffer.GetLine E.cursorY ++ ['\n'])
    else if E.selectionActive then
      ((((E.beginUndoGroup).deleteSelectedText).endUndoGroup), content)
    else (E, content)
  let content := replaceAllL p.2 ['\n'] ['\r', '\n']
  let E := (p.1.setClipboardText content).setStatusMessage "Cut to clipboard"
  { E with dirty := true }

/-- The per-character loop of `pasteFromClipboard`, stopping at the first
`Insert` error as the source does. -/
def pasteLoop (E : Editor) (chars : List Char) (entries : List OpEntry) :
    Editor × List OpEntry × Bool :=
  match chars with
  | [] => (E, entries, true)
  | ch :: t =>
    let insertLine := E.cursorY
    let insertCol := E.cursorX
    let res := E.buffer.Insert E.cursorY E.cursorX ch
    if res.2.isSome then
      (({ E with buffer := res.1 }).setStatusMessage "Paste error", entries, false)
    else
      let E := { E with buffer := res.1 }
      let E := if ch = '\n' then { E with cursorY := E.cursorY + 1, cursorX := 0 }
               else { E with cursorX := E.cursorX + 1 }
      pasteLoop E t
        (entries ++ [{ insertLine := insertLine, insertCol := insertCol,
                       delLine := E.cursorY, delCol := E.cursorX, r := ch }])

/-- Mirrors `pasteFromClipboard` (editor/render.go); the OS clipboard read is
modelled by the `clipboard` field and always succeeds.  The deferred
`endUndoGroup` runs on the early error return as well. -/
def pasteFromClipboard (E : Editor) : Editor :=
  let text := E.clipboard
  if text = [] then E.setStatusMessage "Clipboard is empty"
  else
    let text := replaceAllL text ['\r', '\n'] ['\n']
    let text := replaceAllL text ['\r'] ['\n']
    let E := E.flushTypingAndBackspaceIfNeeded
    let E := E.beginUndoGroup
    let p := pasteLoop E text []
    if p.2.2 then
      let E := p.1.pushUndoInsertBlock p.2.1
      let E := { E with dirty := true }
      (E.setStatusMessage "Pasted from clipboard").endUndoGroup
    else p.1.endUndoGroup

/-- Mirrors `updateLineNumWidth`. -/
def updateLineNumWidth (E : Editor) : Editor :=
  if E.showLineNumbers then { E with lineNumWidth := 5 } else { E with lineNumWidth := 0 }

/-- Mirrors `toggleLineNumbers`. -/
def toggleLineNumbers (E : Editor) : Editor :=
  let E := { E with showLineNumbers := ¬E.showLineNumbers }
  let E := E.updateLineNumWidth
  if E.showLineNumbers then
    ({ E with lineNumWidth := 5 }).setStatusMessage "Line numbers ON"
  else
    ({ E with lineNumWidth := 0 }).setStatusMessage "Line numbers OFF"

/-- Mirrors `duplicateLine` (editor/text_manipulation.go). -/
def duplicateLine (E : Editor) : Editor :=
  if E.buffer.LineCount = 0 then E
  else
    let origX := E.cursorX
    let origY := E.cursorY
    let lineContent := E.buffer.GetLine origY
    let E := E.beginUndoGroup
    let p : Editor × List Char :=
      if origY = (E.buffer.LineCount : Int) - 1 then
        ({ E with cursorX := (lineContent.length : Int) }, '\n' :: lineContent)
      else
        ({ E with cursorY := origY + 1, cursorX := 0 }, lineContent ++ ['\n'])
    let E := p.1.insertString p.2
    let E := { E with cursorY := origY, cursorX := origX }
    let E := E.clampCursorX
    { (E.endUndoGroup) with dirty := true }

/-- Mirrors `detectCase` (0 = lower, 1 = title, 2 = upper, 3 = mixed). -/
def detectCase (s : List Char) : Nat :=
  if s = [] then 0
  else if s = toLowerL s then 0
  else if s = toUpperL s then 2
  else
    match s with
    | [] => 3
    | r0 :: rest =>
      if r0.isUpper ∧ 1 < s.length ∧ rest = toLowerL rest then 1 else 3

/-- Mirrors `toTitleCase`. -/
def toTitleCase (s : List Char) : List Char :=
  match s with
  | [] => []
  | c :: t => c.toUpper :: toLowerL t

/-- Mirrors `toggleCaseAtCursor` (editor/text_manipulation.go). -/
def toggleCaseAtCursor (E : Editor) : Editor :=
  if E.buffer.LineCount = 0 then E
  else
    let runes := E.buffer.GetLine E.cursorY
    if runes = [] then E
    else
      let originalCursorX := E.cursorX
      let idx0 := E.cursorX
      let idx1 := if (runes.length : Int) ≤ idx0 then (runes.length : Int) - 1 else idx0
      let idxOpt : Option Int :=
        if ¬isWordChar (getAtI runes idx1) then
          if 0 < idx1 ∧ isWordChar (getAtI runes (idx1 - 1)) then some (idx1 - 1) else none
        else some idx1
      match idxOpt with
      | none => E
      | some idx =>
        let start := scanStartWhile isWordChar runes idx
        let en := scanEndWhile isWordChar runes idx
        let word := (runes.drop start.toNat).take (en - start).toNat
        if word = [] then E
        else
          let currentCase := detectCase word
          let nextWord :=
            if currentCase = 0 then toTitleCase word
            else if currentCase = 1 then toUpperL word
            else if currentCase = 2 then toLowerL word
            else toLowerL word
          let E := E.beginUndoGroup
          let E := { E with selectionActive := true, selectionAnchorY := E.cursorY,
                            selectionAnchorX := start, cursorX := en }
          let E := E.deleteSelectedText
          let E := E.insertString nextWord
          let E := { E with selectionActive := false }
          let newLineLen : Int := ((E.buffer.GetLine E.cursorY).length : Int)
          let E := if newLineLen < originalCursorX then { E with cursorX := newLineLen }
                   else { E with cursorX := originalCursorX }
          { (E.endUndoGroup) with dirty := true }

/-- Mirrors `moveWordLeft` (editor/main.go). -/
def moveWordLeft (E : Editor) (isSelecting : Bool) : Editor :=
  let E :=
    if isSelecting ∧ ¬E.selectionActive then
      { E with selectionActive := true, selectionAnchorX := E.cursorX,
               selectionAnchorY := E.cursorY }
    else if ¬isSelecting then { E with selectionActive := false }
    else E
  let y := E.cursorY
  let x := E.cursorX
  if x = 0 then
    if 0 < y then
      { E with cursorY := y - 1, cursorX := ((E.buffer.GetLine (y - 1)).length : Int) }
    else E
  else
    let x := x - 1
    let lineRunes := E.buffer.GetLine y
    let x := scanLeftWhile Char.isWhitespace lineRunes x
    if x < 0 then { E with cursorY := y, cursorX := 0 }
    else
      let x :=
        if isWordChar (getAtI lineRunes x) then scanLeftWhile isWordChar lineRunes x
        else if isPunctChar (getAtI lineRunes x) then scanLeftWhile isPunctChar lineRunes x
        else x
      { E with cursorY := y, cursorX := x + 1 }

/-- Mirrors `handleDeleteWordLeft` (editor/input.go). -/
def handleDeleteWordLeft (E : Editor) : Editor :=
  let E := E.flushEditGroups
  if E.selectionActive then ((E.beginUndoGroup).deleteSelectedText).endUndoGroup
  else
    let endY := E.cursorY
    let endX := E.cursorX
    let E := E.moveWordLeft false
    let startY := E.cursorY
    let startX := E.cursorX
    if startY = endY ∧ startX = endX then E
    else
      let E := { E with cursorY := endY, cursorX := endX,
                        selectionAnchorY := startY, selectionAnchorX := startX,
                        selectionActive := true }
      ((E.beginUndoGroup).deleteSelectedText).endUndoGroup

/-- The per-character loop of the Enter branch of `handleKey`, stopping with
a status message on the first `Insert` error (the source then returns without
pushing the undo block). -/
def enterInsertLoop (E : Editor) (chars : List Char) (entries : List OpEntry) :
    Editor × List OpEntry × Bool :=
  match chars with
  | [] => (E, entries, true)
  | ch :: t =>
    let insertLine := E.cursorY
    let insertCol := E.cursorX
    let res := E.buffer.Insert E.cursorY E.cursorX ch
    if res.2.isSome then
      (({ E with buffer := res.1 }).setStatusMessage "Insert error", entries, false)
    else
      let E := { E with buffer := res.1 }
      let E := if ch = '\n' then { E with cursorY := E.cursorY + 1, cursorX := 0 }
               else { E with cursorX := E.cursorX + 1 }
      enterInsertLoop E t
        (entries ++ [{ insertLine := insertLine, insertCol := insertCol,
                       delLine := E.cursorY, delCol := E.cursorX, r := ch }])

/-- One iteration of the multi-cursor backspace loop in `handleKey`
(editor/input.go, case `'\x7f'`); the `Delete` errors are discarded by the
source.  The final `if i = cursorY` test is kept although it can never fire
after `cursorY` was just set to `i - 1` (it is dead in the source too). -/
def backspaceStep (E : Editor) (i : Int) : Editor :=
  if (E.buffer.LineCount : Int) ≤ i then E
  else
    let lineRunes := E.buffer.GetLine i
    let lineLen : Int := (lineRunes.length : Int)
    let targetX := if lineLen < E.cursorX then lineLen else E.cursorX
    if targetX = 0 ∧ i = 0 then E
    else
      let E :=
        if 0 < targetX then
          let delIndex := targetX - 1
          let char := E.getRuneAt i delIndex
          let E := E.pushUndoDeleteIfExternalGrouping i delIndex char
          { E with buffer := (E.buffer.Delete i targetX).1 }
        else
          if E.extraCursorHeight = 0 then
            let prevLineIdx := i - 1
            let prevLineContent := E.buffer.GetLine prevLineIdx
            let expectedCursorX : Int := (prevLineContent.length : Int)
            let E := E.pushUndoDeleteIfExternalGrouping prevLineIdx expectedCursorX '\n'
            let E := { E with cursorY := prevLineIdx }
            let E := { E with buffer := (E.buffer.Delete i 0).1 }
            if i = E.cursorY then
              { E with cursorX := ((E.buffer.GetLine E.cursorY).length : Int) }
            else E
          else E
      { E with dirty := true }

/-- One iteration of the multi-cursor typing loop in `handleKey` (the
`default` case); an `Insert` error skips the undo push (`continue`). -/
def typingStep (r : Char) (E : Editor) (i : Int) : Editor :=
  if (E.buffer.LineCount : Int) ≤ i then E
  else
    let lineRunes := E.buffer.GetLine i
    let targetX := if (lineRunes.length : Int) < E.cursorX then (lineRunes.length : Int)
                   else E.cursorX
    let res := E.buffer.Insert i targetX r
    if res.2.isSome then { E with buffer := res.1 }
    else
      let E := { E with buffer := res.1 }
      E.pushUndoInsertBlock
        [{ insertLine := i, insertCol := targetX, delLine := i, delCol := targetX, r := r }]

/-- Mirrors `handleKey` (editor/input.go), with `time.Now()` hoisted into the
`now` parameter.  `processInput` intercepts `'\x1b'` before `handleKey`; the
embedding still mirrors what `handleKey` itself would do on any rune. -/
def handleKey (E : Editor) (r : Char) (now : Nat) : Editor :=
  -- first switch: selection survives only escape/copy/cut/select-all/backspace
  let E := match r with
    | '\x1b' | '\x03' | '\x18' | '\x01' | '\x7f' => E
    | _ => { E with selectionActive := false }
  -- second switch: new edits clear the redo stack, except
  -- undo/redo/escape/copy/cut/select-all
  let E := match r with
    | '\x15' | '\x19' | '\x1b' | '\x03' | '\x18' | '\x01' => E
    | _ => { E with redoStack := [] }
  match r with
  | '\x01' =>
    let E := E.flushEditGroups
    ({ E with extraCursorHeight := 0 }).selectAll
  | '\x11' =>
    let E := E.flushEditGroups
    if ¬E.dirty then { E with quit := true }
    else if E.isContentUnchanged then { E with quit := true }
    else ({ E with isQuitting := true }).setStatusMessage "Save modified buffer (Y/N)?"
  | '\x13' => (E.flushEditGroups).save
  | '\x05' =>
    let E := E.flushEditGroups
    ({ E with isSaveAs := true, promptBuffer := E.filename,
              promptCursorX := (E.filename.length : Int) }).setStatusMessage "Save As: "
  | '\x15' => (E.flushEditGroups).undo
  | '\x19' => (E.flushEditGroups).redo
  | '\x03' => (E.flushEditGroups).copyToClipboard
  | '\x18' => (E.flushEditGroups).cutToClipboard
  | '\x16' => (E.flushEditGroups).pasteFromClipboard
  | '\x0c' => (E.flushEditGroups).toggleLineNumbers
  | '\x14' =>
    let E := E.flushEditGroups
    { E with isGotoLine := true, promptBuffer := [], statusMessage := "Go to Line: " }
  | '\x06' =>
    let E := E.flushEditGroups
    let E := { E with findOrigCursorX := E.cursorX, findOrigCursorY := E.cursorY }
    let E :=
      if E.lastSearchQuery ≠ [] then ({ E with promptBuffer := E.lastSearchQuery }).findInitial
      else { E with promptBuffer := [], findMatches := [] }
    { E with promptCursorX := (E.promptBuffer.length : Int), isFinding := true,
             findCurrentMatch := -1,
             statusMessage := "Find (ESC:Cancel | Enter/Ctrl+N:Next | Ctrl+P:Prev): " }
  | '\x08' =>
    let E := E.flushEditGroups
    let E := { E with findOrigCursorX := E.cursorX, findOrigCursorY := E.cursorY,
                      isReplacing := true, isFinding := true, promptFocus := 0,
                      promptBuffer := E.lastSearchQuery }
    let E := { E with promptCursorX := (E.promptBuffer.length : Int),
                      replaceBuffer := [], replaceCursorX := 0 }
    if E.promptBuffer ≠ [] then E.findInitial else E
  | '\x0f' =>
    let E := E.flushEditGroups
    let E := { E with showNonPrintable := ¬E.showNonPrintable }
    E.setStatusMessage
      (if E.showNonPrintable then "Show non-printable: ON" else "Show non-printable: OFF")
  | '\x04' =>
    let E := E.flushEditGroups
    ({ E with extraCursorHeight := 0 }).duplicateLine
  | '\x0b' =>
    let E := E.flushEditGroups
    ({ E with extraCursorHeight := 0 }).toggleCaseAtCursor
  | '\x17' => E.handleDeleteWordLeft
  | '\r' =>
    let E := E.flushBackspaceGroup.flushDeleteGroup.flushTypingGroup
    let E := { E with extraCursorHeight := 0 }
    let currentLine := E.buffer.GetLine E.cursorY
    let indent := currentLine.takeWhile (fun c => c == ' ' || c == '\t')
    let p := enterInsertLoop E ('\n' :: indent) []
    if p.2.2 then
      let E := p.1.pushUndoInsertBlock p.2.1
      { E with lastTypeTime := now, dirty := true }
    else p.1
  | '\x7f' =>
    if E.selectionActive then ((E.beginUndoGroup).deleteSelectedText).endUndoGroup
    else
      let E := E.flushTypingGroup.flushDeleteGroup
      let E := E.beginUndoGroup
      let rg := E.getMultiCursorRange
      let E : Editor := (descRange rg.2 rg.1).foldl backspaceStep E
      let E := if 0 < E.cursorX then { E with cursorX := E.cursorX - 1 } else E
      E.endUndoGroup
  | _ =>
    let E := E.flushBackspaceGroup.flushDeleteGroup.flushTypingGroup
    let E := E.beginUndoGroup
    let rg := E.getMultiCursorRange
    let E : Editor := (ascRange rg.1 rg.2).foldl (typingStep r) E
    let E := { E with cursorX := E.cursorX + 1 }
    let E := { E with lastTypeTime := now, dirty := true }
    E.endUndoGroup

end Editor

section StackLemmas
namespace Editor

theorem replayDeleteAtDel_stacks (ops : List OpEntry) (E : Editor) :
    (replayDeleteAtDel E ops).undoStack = E.undoStack ∧
    (replayDeleteAtDel E ops).redoStack = E.redoStack := by
  induction ops generalizing E with
  | nil => exact ⟨rfl, rfl⟩
  | cons op t ih => simpa [replayDeleteAtDel] using ih _

theorem replayInsertAtOrig_stacks (ops : List OpEntry) (E : Editor) :
    (replayInsertAtOrig E ops).undoStack = E.undoStack ∧
    (replayInsertAtOrig E ops).redoStack = E.redoStack := by
  induction ops generalizing E with
  | nil => exact ⟨rfl, rfl⟩
  | cons op t ih => simpa [replayInsertAtOrig] using ih _

theorem replayDeleteAtOrig_stacks (ops : List OpEntry) (E : Editor) :
    (replayDeleteAtOrig E ops).undoStack = E.undoStack ∧
    (replayDeleteAtOrig E ops).redoStack = E.redoStack := by
  induction ops generalizing E with
  | nil => exact ⟨rfl, rfl⟩
  | cons op t ih => simpa [replayDeleteAtOrig] using ih _

theorem performUndo_undoStack (E : Editor) (a : UndoAction) :
    (E.performUndo a).undoStack = E.undoStack := by
  obtain ⟨isIns, ops, gid, isB⟩ := a
  cases isIns with
  | true =>
    cases ops with
    | nil => exact (replayDeleteAtDel_stacks _ _).1
    | cons op0 t => exact (replayDeleteAtDel_stacks _ _).1
  | false =>
    cases ops with
    | nil => exact (replayInsertAtOrig_stacks _ _).1
    | cons op0 t =>
      cases isB with
      | false => exact (replayInsertAtOrig_stacks _ _).1
      | true =>
        rcases hlast : (op0 :: t).getLast? with _ | last
        · simp only [performUndo, hlast]
          exact (replayInsertAtOrig_stacks _ _).1
        · by_cases hn : last.r = '\n' <;> simp only [performUndo, hlast, hn, if_true, if_false] <;>
            exact (replayInsertAtOrig_stacks _ _).1

theorem performUndo_redoStack (E : Editor) (a : UndoAction) :
    (E.performUndo a).redoStack = E.redoStack := by
  obtain ⟨isIns, ops, gid, isB⟩ := a
  cases isIns with
  | true =>
    cases ops with
    | nil => exact (replayDeleteAtDel_stacks _ _).2
    | cons op0 t => exact (replayDeleteAtDel_stacks _ _).2
  | false =>
    cases ops with
    | nil => exact (replayInsertAtOrig_stacks _ _).2
    | cons op0 t =>
      cases isB with
      | false => exact (replayInsertAtOrig_stacks _ _).2
      | true =>
        rcases hlast : (op0 :: t).getLast? with _ | last
        · simp only [performUndo, hlast]
          exact (replayInsertAtOrig_stacks _ _).2
        · by_cases hn : last.r = '\n' <;> simp only [performUndo, hlast, hn, if_true, if_false] <;>
            exact (replayInsertAtOrig_stacks _ _).2

theorem performRedo_redoStack (E : Editor) (a : UndoAction) :
    (E.performRedo a).redoStack = E.redoStack := by
  obtain ⟨isIns, ops, gid, isB⟩ := a
  cases isIns with
  | false =>
    cases ops with
    | nil => exact (replayDeleteAtOrig_stacks _ _).2
    | cons op0 t => exact (replayDeleteAtOrig_stacks _ _).2
  | true =>
    cases ops with
    | nil => exact (replayInsertAtOrig_stacks _ _).2
    | cons op0 t =>
      rcases hlast : (op0 :: t).getLast? with _ | last
      · simp only [performRedo, hlast]
        exact (replayInsertAtOrig_stacks _ _).2
      · by_cases hn : last.r = '\n' <;> simp only [performRedo, hlast, hn, if_true, if_false] <;>
          exact (replayInsertAtOrig_stacks _ _).2

theorem performRedo_undoStack (E : Editor) (a : UndoAction) :
    (E.performRedo a).undoStack = E.undoStack := by
  obtain ⟨isIns, ops, gid, isB⟩ := a
  cases isIns with
  | false =>
    cases ops with
    | nil => exact (replayDeleteAtOrig_stacks _ _).1
    | cons op0 t => exact (replayDeleteAtOrig_stacks _ _).1
  | true =>
    cases ops with
    | nil => exact (replayInsertAtOrig_stacks _ _).1
    | cons op0 t =>
      rcases hlast : (op0 :: t).getLast? with _ | last
      · simp only [performRedo, hlast]
        exact (replayInsertAtOrig_stacks _ _).1
      · by_cases hn : last.r = '\n' <;> simp only [performRedo, hlast, hn, if_true, if_false] <;>
          exact (replayInsertAtOrig_stacks _ _).1

end Editor
end StackLemmas

/-! ## Properties of the line index -/

/-- Splicing with `insertIdx` is take-cons-drop, for indices inside the
list. -/
theorem insertIdx_eq_take_drop {α : Type} (s : List α) (i : Nat) (c : α) (h : i ≤ s.length) :
    s.insertIdx i c = s.take i ++ c :: s.drop i := by
  induction s generalizing i with
  | nil =>
    have : i = 0 := by simpa using h
    subst this
    rfl
  | cons a t ih =>
    cases i with
    | zero => rfl
    | succ j =>
      simp only [List.insertIdx_succ_cons, List.take_succ_cons, List.drop_succ_cons,
        List.cons_append]
      rw [ih j (by simpa using h)]

/-- Removal with `eraseIdx` is take-append-drop. -/
theorem eraseIdx_eq_take_drop {α : Type} (s : List α) (i : Nat) :
    s.eraseIdx i = s.take i ++ s.drop (i + 1) := by
  induction s generalizing i with
  | nil => simp
  | cons a t ih =>
    cases i with
    | zero => rfl
    | succ j =>
      simp only [List.eraseIdx_cons_succ, List.take_succ_cons, List.drop_succ_cons,
        List.cons_append]
      rw [ih j]

theorem insertIdx_append_left {α : Type} (a b : List α) (i : Nat) (c : α) (h : i ≤ a.length) :
    (a ++ b).insertIdx i c = a.insertIdx i c ++ b := by
  induction a generalizing i with
  | nil =>
    have : i = 0 := by simpa using h
    subst this
    rfl
  | cons x t ih =>
    cases i with
    | zero => rfl
    | succ j =>
      simp only [List.cons_append, List.insertIdx_succ_cons]
      rw [ih j (by simpa using h)]

theorem insertIdx_append_right {α : Type} (a b : List α) (i : Nat) (c : α) (h : a.length ≤ i) :
    (a ++ b).insertIdx i c = a ++ b.insertIdx (i - a.length) c := by
  induction a generalizing i with
  | nil => simp
  | cons x t ih =>
    cases i with
    | zero =>
      simp at h
    | succ j =>
      simp only [List.cons_append, List.insertIdx_succ_cons]
      rw [ih j (by simpa using h)]
      simp

/-- Entries of `marks s off` lie in `(off, off + s.length]`. -/
theorem mem_marks_bounds : ∀ (s : List Char) (off a : Nat), a ∈ marks s off →
    off < a ∧ a ≤ off + s.length := by
  intro s
  induction s with
  | nil =>
    intro off a h
    simp [marks] at h
  | cons c t ih =>
    intro off a h
    simp only [marks] at h
    simp only [List.length_cons]
    split at h
    · rcases List.mem_cons.mp h with rfl | h
      · omega
      · have := ih (off + 1) a h
        omega
    · have := ih (off + 1) a h
      omega

theorem marks_append (a b : List Char) (off : Nat) :
    marks (a ++ b) off = marks a off ++ marks b (off + a.length) := by
  induction a generalizing off with
  | nil => simp [marks]
  | cons c t ih =>
    simp only [List.cons_append, marks, List.length_cons, List.append_eq]
    split
    · rw [ih (off + 1)]
      simp only [List.cons_append]
      congr 3
      omega
    · rw [ih (off + 1)]
      congr 2
      omega

/-- Shifting the offset by one shifts every marker by one. -/
theorem marks_succ (s : List Char) (off : Nat) :
    marks s (off + 1) = (marks s off).map (· + 1) := by
  induction s generalizing off with
  | nil => simp [marks]
  | cons c t ih =>
    simp only [marks]
    split
    · simp only [List.map_cons]
      rw [ih (off + 1)]
    · rw [ih (off + 1)]

/-- Number of newlines in a text. -/
def countNL (s : List Char) : Nat := s.countP (fun c => c == '\n')

theorem marks_length (s : List Char) (off : Nat) : (marks s off).length = countNL s := by
  induction s generalizing off with
  | nil => simp [marks, countNL]
  | cons c t ih =>
    simp only [marks, countNL, List.countP_cons]
    split <;> rename_i h <;> simp only [List.length_cons, ih, countNL] <;> simp [h]

theorem searchInts_append_lt {A : List Nat} {x : Nat} (B : List Nat)
    (h : ∀ a ∈ A, a < x) : searchInts (A ++ B) x = A.length + searchInts B x := by
  induction A with
  | nil => simp
  | cons y t ih =>
    have hy : ¬ x ≤ y := by
      have := h y (by simp)
      omega
    simp only [List.cons_append, searchInts, if_neg hy, List.length_cons, List.append_eq]
    rw [ih (fun a ha => h a (by simp [ha]))]
    omega

theorem getD_append_self {α : Type} (a : List α) (b : α) (l : List α) (d : α) :
    (a ++ b :: l).getD a.length d = b := by
  induction a with
  | nil => rfl
  | cons x t ih => simpa using ih

/-- `findLine` on a decomposition `A ++ x :: ls₂` where everything in `A` is
below `x` and everything in `ls₂` above: the answer is `A.length`. -/
theorem findLine_of_eq (A ls₂ : List Nat) (x : Nat)
    (h1 : ∀ a ∈ A, a < x) (h2 : ∀ a ∈ ls₂, x < a) :
    findLine (A ++ x :: ls₂) x = A.length := by
  have hs : searchInts (A ++ x :: ls₂) x = A.length := by
    rw [searchInts_append_lt _ h1]
    simp [searchInts]
  unfold findLine
  dsimp only
  rw [hs]
  by_cases hA : A.length = 0
  · rw [if_pos hA]
    omega
  · have hlt : A.length < (A ++ x :: ls₂).length := by
      simp only [List.length_append, List.length_cons]
      omega
    have hget : (A ++ x :: ls₂).getD A.length 0 = x := getD_append_self A x ls₂ 0
    rw [if_neg hA, if_pos ⟨hlt, hget⟩]

/-- `findLine` on a decomposition `ls₁ ++ ls₂` with everything in the
nonempty `ls₁` strictly below `x` and everything in `ls₂` strictly above:
the answer is `ls₁.length - 1`. -/
theorem findLine_of_lt (ls₁ ls₂ : List Nat) (x : Nat) (hne : ls₁ ≠ [])
    (h1 : ∀ a ∈ ls₁, a < x) (h2 : ∀ a ∈ ls₂, x < a) :
    findLine (ls₁ ++ ls₂) x = ls₁.length - 1 := by
  have hs2 : searchInts ls₂ x = 0 := by
    cases ls₂ with
    | nil => rfl
    | cons y t =>
      have : x ≤ y := le_of_lt (h2 y (by simp))
      simp [searchInts, this]
  have hs : searchInts (ls₁ ++ ls₂) x = ls₁.length := by
    rw [searchInts_append_lt _ h1, hs2]
    omega
  have hpos : 0 < ls₁.length := List.length_pos.mpr hne
  unfold findLine
  dsimp only
  rw [hs]
  have hne0 : ls₁.length ≠ 0 := by omega
  have hcond : ¬(ls₁.length < (ls₁ ++ ls₂).length ∧ (ls₁ ++ ls₂).getD ls₁.length 0 = x) := by
    rintro ⟨hin, hgd⟩
    rw [List.getD_append_right _ _ _ _ (le_refl _), Nat.sub_self] at hgd
    cases ls₂ with
    | nil => simp at hin
    | cons y t =>
      have := h2 y (by simp)
      simp only [List.getD_cons_zero] at hgd
      omega
  rw [if_neg hne0, if_neg hcond]

/-- The central characterisation: on the reference line index of `s`,
`findLine` at `i ≤ s.length` returns the number of newlines among the first
`i` characters. -/
theorem findLine_lineStartsOf (s : List Char) (i : Nat) (h : i ≤ s.length) :
    findLine (lineStartsOf s) i = (marks (s.take i) 0).length := by
  have htklen : (s.take i).length = i := by
    simp [List.length_take]
    omega
  have hsplit : marks s 0 = marks (s.take i) 0 ++ marks (s.drop i) i := by
    conv_lhs => rw [← List.take_append_drop i s]
    rw [marks_append, htklen, Nat.zero_add]
  have hdrop : ∀ a ∈ marks (s.drop i) i, i < a :=
    fun a ha => (mem_marks_bounds _ _ _ ha).1
  cases i with
  | zero =>
    have h0 : lineStartsOf s = [] ++ 0 :: marks s 0 := by simp [lineStartsOf]
    rw [h0, findLine_of_eq [] (marks s 0) 0 (by simp) (by simpa using hdrop)]
    simp [marks]
  | succ j =>
    have hj : j < s.length := by omega
    have htake : s.take (j + 1) = s.take j ++ [s.getD j default] := by
      rw [List.take_succ]
      congr 1
      rw [List.getD_eq_getElem s default hj]
      simp [List.getElem?_eq_getElem hj]
    have htjlen : (s.take j).length = j := by
      simp [List.length_take]
      omega
    have hmt : marks (s.take (j + 1)) 0 =
        marks (s.take j) 0 ++ marks [s.getD j default] j := by
      rw [htake, marks_append, htjlen, Nat.zero_add]
    have htb : ∀ a ∈ marks (s.take j) 0, a < j + 1 := by
      intro a ha
      have h2 := (mem_marks_bounds _ _ _ ha).2
      rw [htjlen] at h2
      omega
    by_cases hnl : s.getD j default = '\n'
    · have hm1 : marks [s.getD j default] j = [j + 1] := by
        simp only [marks, if_pos hnl]
      have hls : lineStartsOf s =
          (0 :: marks (s.take j) 0) ++ (j + 1) :: marks (s.drop (j + 1)) (j + 1) := by
        rw [lineStartsOf, hsplit, hmt, hm1]
        simp
      rw [hls, findLine_of_eq]
      · rw [hmt, hm1]
        simp
      · intro a ha
        rcases List.mem_cons.mp ha with rfl | ha
        · omega
        · exact htb a ha
      · exact fun a ha => (mem_marks_bounds _ _ _ ha).1
    · have hm1 : marks [s.getD j default] j = [] := by
        simp only [marks, if_neg hnl]
      have hls : lineStartsOf s =
          (0 :: marks (s.take j) 0) ++ marks (s.drop (j + 1)) (j + 1) := by
        rw [lineStartsOf, hsplit, hmt, hm1]
        simp
      rw [hls, findLine_of_lt]
      · rw [hmt, hm1]
        simp
      · simp
      · intro a ha
        rcases List.mem_cons.mp ha with rfl | ha
        · omega
        · exact htb a ha
      · exact fun a ha => (mem_marks_bounds _ _ _ ha).1

/-- Both parts of the reference index around position `i`. -/
theorem lineStartsOf_split (s : List Char) (i : Nat) (h : i ≤ s.length) :
    lineStartsOf s = (0 :: marks (s.take i) 0) ++ marks (s.drop i) i := by
  have htklen : (s.take i).length = i := by
    simp [List.length_take]
    omega
  rw [lineStartsOf]
  conv_lhs => rw [← List.take_append_drop i s]
  rw [marks_append, htklen, Nat.zero_add]
  simp

/-- Correctness of the incremental line-index update on insertion: starting
from the reference index of `s`, inserting character `c` at offset
`i ≤ s.length` yields the reference index of the spliced text. -/
theorem updateLineIndexOnInsert_spec (s : List Char) (i : Nat) (c : Char) (h : i ≤ s.length) :
    Rope.updateLineIndexOnInsert (lineStartsOf s) i c = lineStartsOf (s.insertIdx i c) := by
  have hfl := findLine_lineStartsOf s i h
  have hsplit := lineStartsOf_split s i h
  have hlen1 : (0 :: marks (s.take i) 0).length = (marks (s.take i) 0).length + 1 := by simp
  have htk : (lineStartsOf s).take ((marks (s.take i) 0).length + 1) = 0 :: marks (s.take i) 0 := by
    rw [hsplit]
    exact List.take_left' hlen1
  have hdr : (lineStartsOf s).drop ((marks (s.take i) 0).length + 1) = marks (s.drop i) i := by
    rw [hsplit]
    exact List.drop_left' hlen1
  have htklen : (s.take i).length = i := by
    simp [List.length_take]
    omega
  have hnew : lineStartsOf (s.insertIdx i c) =
      (0 :: marks (s.take i) 0) ++ marks (c :: s.drop i) i := by
    rw [insertIdx_eq_take_drop s i c h, lineStartsOf]
    rw [marks_append, htklen, Nat.zero_add]
    simp
  have hshift : marks (s.drop i) (i + 1) = (marks (s.drop i) i).map (· + 1) := marks_succ _ _
  rw [Rope.updateLineIndexOnInsert, hfl, htk, hdr, hnew]
  by_cases hc : c = '\n'
  · rw [if_pos hc]
    have : marks (c :: s.drop i) i = (i + 1) :: marks (s.drop i) (i + 1) := by
      simp only [marks, if_pos hc]
    rw [this, hshift]
  · rw [if_neg hc]
    have : marks (c :: s.drop i) i = marks (s.drop i) (i + 1) := by
      simp only [marks, if_neg hc]
    rw [this, hshift]

/-- Undoing the shift: mapping subtraction of one over incremented markers is
the identity. -/
theorem map_sub_one_map_add_one (l : List Nat) : (l.map (· + 1)).map (· - 1) = l := by
  induction l with
  | nil => rfl
  | cons a t ih => simp [ih]

/-- Correctness of the incremental line-index update on deletion: starting
from the reference index of `s`, removing the character at offset
`i < s.length` yields the reference index of the shortened text. -/
theorem updateLineIndexOnDelete_spec (s : List Char) (i : Nat) (h : i < s.length) :
    Rope.updateLineIndexOnDelete (lineStartsOf s) i (s.getD i default) =
      lineStartsOf (s.eraseIdx i) := by
  have hle : i ≤ s.length := le_of_lt h
  have hfl := findLine_lineStartsOf s i hle
  have hsplit := lineStartsOf_split s i hle
  have htklen : (s.take i).length = i := by
    simp [List.length_take]
    omega
  have hdropc : s.drop i = s.getD i default :: s.drop (i + 1) := by
    rw [List.getD_eq_getElem s default h]
    exact List.drop_eq_getElem_cons h
  have hnew : lineStartsOf (s.eraseIdx i) =
      (0 :: marks (s.take i) 0) ++ marks (s.drop (i + 1)) i := by
    rw [eraseIdx_eq_take_drop s i, lineStartsOf]
    rw [marks_append, htklen, Nat.zero_add]
    simp
  have hshift : marks (s.drop (i + 1)) (i + 1) = (marks (s.drop (i + 1)) i).map (· + 1) :=
    marks_succ _ _
  set M := marks (s.take i) 0 with hM
  rw [Rope.updateLineIndexOnDelete]
  dsimp only
  rw [hfl, hnew]
  by_cases hc : s.getD i default = '\n'
  · rw [if_pos hc]
    have hmd : marks (s.drop i) i = (i + 1) :: marks (s.drop (i + 1)) (i + 1) := by
      rw [hdropc]
      simp only [marks, if_pos hc]
    have hls : lineStartsOf s =
        (0 :: M) ++ (i + 1) :: marks (s.drop (i + 1)) (i + 1) := by
      rw [hsplit, hmd]
    have hcount : M.length + 1 < (lineStartsOf s).length := by
      rw [hls]
      simp
    rw [if_pos hcount]
    have htk2 : (lineStartsOf s).take (M.length + 1) = 0 :: M := by
      rw [hls]
      exact List.take_left' (by simp)
    have hdr2 : (lineStartsOf s).drop (M.length + 1 + 1) = marks (s.drop (i + 1)) (i + 1) := by
      rw [hls]
      have hregroup : ((0 :: M) ++ (i + 1) :: marks (s.drop (i + 1)) (i + 1)) =
          ((0 :: M) ++ [i + 1]) ++ marks (s.drop (i + 1)) (i + 1) := by simp
      rw [hregroup]
      exact List.drop_left' (by simp)
    rw [htk2, hdr2]
    have htk3 : ((0 :: M) ++ marks (s.drop (i + 1)) (i + 1)).take (M.length + 1) = 0 :: M :=
      List.take_left' (by simp)
    have hdr3 : ((0 :: M) ++ marks (s.drop (i + 1)) (i + 1)).drop (M.length + 1) =
        marks (s.drop (i + 1)) (i + 1) :=
      List.drop_left' (by simp)
    rw [htk3, hdr3, hshift, map_sub_one_map_add_one]
  · rw [if_neg hc]
    have hmd : marks (s.drop i) i = marks (s.drop (i + 1)) (i + 1) := by
      rw [hdropc]
      simp only [marks, if_neg hc]
    have hls : lineStartsOf s = (0 :: M) ++ marks (s.drop (i + 1)) (i + 1) := by
      rw [hsplit, hmd]
    have htk2 : (lineStartsOf s).take (M.length + 1) = 0 :: M := by
      rw [hls]
      exact List.take_left' (by simp)
    have hdr2 : (lineStartsOf s).drop (M.length + 1) = marks (s.drop (i + 1)) (i + 1) := by
      rw [hls]
      exact List.drop_left' (by simp)
    rw [htk2, hdr2, hshift, map_sub_one_map_add_one]

/-! ## Structural invariants of the tree -/

/-- Well-formedness of a node: every cached weight equals the length of the
left child's flattening (the `weight == length(left)` invariant of the
spec). -/
def WF : Node → Prop
  | .leaf _ => True
  | .internal l r w => WF l ∧ WF r ∧ w = l.flatten.length

theorem WF_leaf (d : List Char) : WF (.leaf d) := trivial

theorem length_flatten {n : Node} (hw : WF n) : n.length = n.flatten.length := by
  induction n with
  | leaf d => rfl
  | internal l r w ihl ihr =>
    obtain ⟨hl, hr, hwt⟩ := hw
    simp only [Node.length, Node.flatten, List.length_append, hwt, ihr hr]

/-- `node.insert` splices the character into the flattening and preserves
well-formedness (covering the leaf-split path). -/
theorem insert_spec (n : Node) (i : Nat) (c : Char) (hw : WF n)
    (h : i ≤ n.flatten.length) :
    WF (n.insert i c) ∧ (n.insert i c).flatten = n.flatten.insertIdx i c := by
  induction n generalizing i with
  | leaf d =>
    simp only [Node.flatten] at h
    have hd : d.take i ++ c :: d.drop i = d.insertIdx i c := (insertIdx_eq_take_drop d i c h).symm
    simp only [Node.insert]
    split
    · constructor
      · exact ⟨trivial, trivial, rfl⟩
      · simp only [Node.flatten, List.take_append_drop, hd]
    · exact ⟨trivial, by simp only [Node.flatten, hd]⟩
  | internal l r w ihl ihr =>
    obtain ⟨hl, hr, hwt⟩ := hw
    simp only [Node.flatten, List.length_append] at h
    simp only [Node.insert]
    by_cases hi : i < w
    · rw [if_pos hi]
      have hile : i ≤ l.flatten.length := by omega
      obtain ⟨hwf', hfl'⟩ := ihl _ hl hile
      refine ⟨⟨hwf', hr, ?_⟩, ?_⟩
      · rw [hfl', List.length_insertIdx i _ hile]
        omega
      · simp only [Node.flatten, hfl']
        rw [insertIdx_append_left _ _ _ _ hile]
    · rw [if_neg hi]
      have hige : w ≤ i := by omega
      have hile : i - w ≤ r.flatten.length := by omega
      obtain ⟨hwf', hfl'⟩ := ihr _ hr hile
      refine ⟨⟨hl, hwf', hwt⟩, ?_⟩
      · simp only [Node.flatten, hfl']
        rw [insertIdx_append_right _ _ _ _ (by omega), hwt]

/-- `node.delete` removes the character from the flattening and preserves
well-formedness (covering the empty-child promotion paths). -/
theorem delete_spec (n : Node) (i : Nat) (hw : WF n) (h : i < n.flatten.length) :
    WF (n.delete i) ∧ (n.delete i).flatten = n.flatten.eraseIdx i := by
  induction n generalizing i with
  | leaf d =>
    simp only [Node.flatten] at h
    refine ⟨trivial, ?_⟩
    simp only [Node.delete, Node.flatten]
    exact (eraseIdx_eq_take_drop d i).symm
  | internal l r w ihl ihr =>
    obtain ⟨hl, hr, hwt⟩ := hw
    simp only [Node.flatten, List.length_append] at h
    simp only [Node.delete, Node.flatten]
    by_cases hi : i < w
    · rw [if_pos hi]
      dsimp only
      have hilt : i < l.flatten.length := by omega
      obtain ⟨hwf', hfl'⟩ := ihl _ hl hilt
      have herase : (l.flatten ++ r.flatten).eraseIdx i = l.flatten.eraseIdx i ++ r.flatten :=
        List.eraseIdx_append_of_lt_length hilt r.flatten
      by_cases hz : (l.delete i).length = 0
      · rw [if_pos hz]
        have hfl0 : (l.delete i).flatten = [] := by
          apply List.length_eq_zero.mp
          rw [← length_flatten hwf']
          exact hz
        have he0 : l.flatten.eraseIdx i = [] := by
          rw [← hfl']
          exact hfl0
        refine ⟨hr, ?_⟩
        rw [herase, he0]
        simp
      · rw [if_neg hz]
        by_cases hz2 : r.length = 0
        · rw [if_pos hz2]
          have hfr0 : r.flatten = [] := by
            apply List.length_eq_zero.mp
            rw [← length_flatten hr]
            exact hz2
          refine ⟨hwf', ?_⟩
          rw [herase, hfr0, hfl']
          simp
        · rw [if_neg hz2]
          refine ⟨⟨hwf', hr, ?_⟩, ?_⟩
          · rw [hfl', List.length_eraseIdx_of_lt hilt]
            omega
          · simp only [Node.flatten, hfl', herase]
    · rw [if_neg hi]
      dsimp only
      have hilt : i - w < r.flatten.length := by omega
      obtain ⟨hwf', hfl'⟩ := ihr _ hr hilt
      have herase : (l.flatten ++ r.flatten).eraseIdx i =
          l.flatten ++ r.flatten.eraseIdx (i - w) := by
        rw [List.eraseIdx_append_of_length_le (by omega) r.flatten, hwt]
      by_cases hz : l.length = 0
      · rw [if_pos hz]
        have hfl0 : l.flatten = [] := by
          apply List.length_eq_zero.mp
          rw [← length_flatten hl]
          exact hz
        refine ⟨hwf', ?_⟩
        rw [herase, hfl', hfl0]
        simp
      · rw [if_neg hz]
        by_cases hz2 : (r.delete (i - w)).length = 0
        · rw [if_pos hz2]
          have hfr0 : (r.delete (i - w)).flatten = [] := by
            apply List.length_eq_zero.mp
            rw [← length_flatten hwf']
            exact hz2
          have he0 : r.flatten.eraseIdx (i - w) = [] := by
            rw [← hfl']
            exact hfr0
          refine ⟨hl, ?_⟩
          rw [herase, he0]
          simp
        · rw [if_neg hz2]
          refine ⟨⟨hl, hwf', hwt⟩, ?_⟩
          simp only [Node.flatten, hfl', herase]

/-- `node.runeAt` returns the character of the flattening, for in-range
indices on a well-formed tree. -/
theorem runeAt_spec (n : Node) (i : Nat) (hw : WF n) (h : i < n.flatten.length) :
    n.runeAt i = .ok (n.flatten.getD i default) := by
  induction n generalizing i with
  | leaf d =>
    simp only [Node.flatten] at h
    simp only [Node.runeAt, if_pos h, Node.flatten]
  | internal l r w ihl ihr =>
    obtain ⟨hl, hr, hwt⟩ := hw
    simp only [Node.flatten, List.length_append] at h
    simp only [Node.runeAt, Node.flatten]
    by_cases hi : i < w
    · rw [if_pos hi, ihl _ hl (by omega)]
      rw [List.getD_append _ _ _ _ (by omega)]
    · rw [if_neg hi, ihr _ hr (by omega)]
      rw [List.getD_append_right _ _ _ _ (by omega), hwt]

/-- `rebuildLineIndexHelper` appends exactly the newline markers of the
subtree's flattening. -/
theorem rebuildHelper_spec (n : Node) (hw : WF n) :
    ∀ (off : Nat) (acc : List Nat), n.rebuildHelper off acc = acc ++ marks n.flatten off := by
  induction n with
  | leaf d => intro off acc; rfl
  | internal l r w ihl ihr =>
    intro off acc
    obtain ⟨hl, hr, hwt⟩ := hw
    simp only [Node.rebuildHelper, Node.flatten]
    rw [ihr hr, ihl hl, marks_append, hwt, List.append_assoc]

/-- `rebuildLineIndex` computes exactly the reference line index. -/
theorem rebuildLineIndex_spec (n : Node) (hw : WF n) :
    rebuildLineIndex (some n) = lineStartsOf n.flatten := by
  simp only [rebuildLineIndex, lineStartsOf]
  rw [rebuildHelper_spec n hw 0 [0]]
  rfl

/-! ## The rope invariant and the simulation against plain text -/

/-- The reference resolution of `(line, col)` to a global offset, computed
from the text alone: the same arithmetic as `Rope.getIndex`, with
`lineStartsOf s` in place of the stored index and `s.length` in place of the
root length. -/
def resolveIndex (s : List Char) (line col : Int) : Except BufErr Nat :=
  if line < 0 then .error (.negLine line)
  else if ((lineStartsOf s).length : Int) ≤ line then
    .error (.lineOutOfBounds line (((lineStartsOf s).length : Int) - 1))
  else
    let ln := line.toNat
    let startIndex := (lineStartsOf s).getD ln 0
    let lineCharLength : Nat :=
      if ln + 1 < (lineStartsOf s).length then (lineStartsOf s).getD (ln + 1) 0 - startIndex - 1
      else s.length - startIndex
    let c0 : Int := if col < 0 then 0 else col
    let c1 : Nat := if (lineCharLength : Int) < c0 then lineCharLength else c0.toNat
    .ok (startIndex + c1)

/-- The invariant of every reachable rope: a present root whose weights are
correct and whose stored line index is the reference index of its content. -/
def Inv (r : Rope) : Prop :=
  ∃ n, r.root = some n ∧ WF n ∧ r.lineStarts = lineStartsOf n.flatten

theorem NewRope_inv (s : List Char) : Inv (NewRope s) := by
  refine ⟨.leaf s, rfl, trivial, ?_⟩
  have := rebuildLineIndex_spec (.leaf s) trivial
  simpa [NewRope] using this

theorem contentOf_of_root {r : Rope} {n : Node} (h : r.root = some n) :
    r.contentOf = n.flatten := by
  simp [Rope.contentOf, h]

theorem getIndex_eq (r : Rope) (hInv : Inv r) (line col : Int) :
    r.getIndex line col = resolveIndex r.contentOf line col := by
  obtain ⟨n, hroot, hwf, hls⟩ := hInv
  rw [contentOf_of_root hroot]
  simp only [Rope.getIndex, resolveIndex, hroot, hls, length_flatten hwf]

theorem mem_lineStartsOf_le {s : List Char} {a : Nat} (h : a ∈ lineStartsOf s) :
    a ≤ s.length := by
  rcases List.mem_cons.mp h with rfl | h
  · omega
  · have := mem_marks_bounds _ _ _ h
    omega

theorem getD_lineStartsOf_le (s : List Char) (k : Nat) :
    (lineStartsOf s).getD k 0 ≤ s.length := by
  by_cases h : k < (lineStartsOf s).length
  · rw [List.getD_eq_getElem _ _ h]
    exact mem_lineStartsOf_le (List.getElem_mem h)
  · rw [List.getD_eq_default _ _ (by omega)]
    omega

theorem resolveIndex_le {s : List Char} {line col : Int} {idx : Nat}
    (h : resolveIndex s line col = .ok idx) : idx ≤ s.length := by
  unfold resolveIndex at h
  split at h
  · exact absurd h (by simp)
  · split at h
    · exact absurd h (by simp)
    · simp only [Except.ok.injEq] at h
      have h1 := getD_lineStartsOf_le s line.toNat
      have h2 := getD_lineStartsOf_le s (line.toNat + 1)
      subst h
      repeat' split
      all_goals omega

/-- Rebalancing preserves the invariant and the content. -/
theorem rebalance_sim (r : Rope) (hInv : Inv r) :
    Inv r.rebalance ∧ r.rebalance.contentOf = r.contentOf := by
  obtain ⟨n, hroot, hwf, hls⟩ := hInv
  rw [contentOf_of_root hroot]
  constructor
  · refine ⟨.leaf n.flatten, ?_, trivial, ?_⟩
    · simp [Rope.rebalance, hroot]
    · simp only [Rope.rebalance, hroot]
      have := rebuildLineIndex_spec (.leaf n.flatten) trivial
      simpa using this
  · simp [Rope.rebalance, hroot, Rope.contentOf, Node.flatten]

/-- The post-mutation rebalance check preserves the invariant and content in
either branch. -/
theorem rebalanceIf_sim (r : Rope) (hInv : Inv r) :
    Inv (if Rope.shouldRebalance r then Rope.rebalance r else r) ∧
    (if Rope.shouldRebalance r then Rope.rebalance r else r).contentOf = r.contentOf := by
  split
  · exact rebalance_sim r hInv
  · exact ⟨hInv, rfl⟩

/-- Simulation of `Rope.Insert` against plain-text splicing: a resolution
error leaves the rope unchanged and is wrapped; a successful resolution
inserts exactly at the resolved offset and preserves the invariant. -/
theorem Insert_sim (r : Rope) (line col : Int) (c : Char) (hInv : Inv r) :
    (∀ e, resolveIndex r.contentOf line col = .error e →
      r.Insert line col c = (r, some (.invalidPosition line col e))) ∧
    (∀ idx, resolveIndex r.contentOf line col = .ok idx →
      (r.Insert line col c).2 = none ∧ Inv (r.Insert line col c).1 ∧
      (r.Insert line col c).1.contentOf = r.contentOf.insertIdx idx c) := by
  obtain ⟨n, hroot, hwf, hls⟩ := hInv
  have hr0 : (match r.root with
      | none => { r with root := some (.leaf []) }
      | some _ => r) = r := by rw [hroot]
  have hgi : r.getIndex line col = resolveIndex r.contentOf line col :=
    getIndex_eq r ⟨n, hroot, hwf, hls⟩ line col
  constructor
  · intro e he
    simp only [Rope.Insert, hr0, hgi, he]
  · intro idx hok
    have hle : idx ≤ n.flatten.length := by
      have := resolveIndex_le hok
      rwa [contentOf_of_root hroot] at this
    obtain ⟨hwf', hfl'⟩ := insert_spec n idx c hwf hle
    have hinv1 : Inv (⟨some (n.insert idx c),
        Rope.updateLineIndexOnInsert r.lineStarts idx c⟩ : Rope) := by
      refine ⟨n.insert idx c, rfl, hwf', ?_⟩
      simp only [hls, hfl']
      exact updateLineIndexOnInsert_spec n.flatten idx c hle
    have hcont1 : (⟨some (n.insert idx c),
        Rope.updateLineIndexOnInsert r.lineStarts idx c⟩ : Rope).contentOf =
        r.contentOf.insertIdx idx c := by
      rw [contentOf_of_root rfl, contentOf_of_root hroot, hfl']
    have hfinal := rebalanceIf_sim _ hinv1
    simp only [Rope.Insert, hr0, hgi, hok, hroot]
    exact ⟨by trivial, hfinal.1, hfinal.2.trans hcont1⟩

/-- `Rope.Delete` at the document head is the defined error, before any
mutation. -/
theorem Delete_at_start (r : Rope) (hInv : Inv r) :
    r.Delete 0 0 = (r, some .deleteAtStart) := by
  obtain ⟨n, hroot, _, _⟩ := hInv
  simp [Rope.Delete, hroot]

/-- Simulation of `Rope.Delete` against plain-text removal, away from the
`(0,0)` early error: a resolution error or a resolved offset of `0` leaves
the rope unchanged; otherwise the character before the resolved offset is
removed and the invariant is preserved. -/
theorem Delete_sim (r : Rope) (line col : Int) (hInv : Inv r)
    (hnz : ¬(col = 0 ∧ line = 0)) :
    (∀ e, resolveIndex r.contentOf line col = .error e →
      r.Delete line col = (r, some (.invalidPosition line col e))) ∧
    (resolveIndex r.contentOf line col = .ok 0 →
      r.Delete line col = (r, some .nothingToDelete)) ∧
    (∀ idx, resolveIndex r.contentOf line col = .ok (idx + 1) →
      (r.Delete line col).2 = none ∧ Inv (r.Delete line col).1 ∧
      (r.Delete line col).1.contentOf = r.contentOf.eraseIdx idx) := by
  obtain ⟨n, hroot, hwf, hls⟩ := hInv
  have hgi : r.getIndex line col = resolveIndex r.contentOf line col :=
    getIndex_eq r ⟨n, hroot, hwf, hls⟩ line col
  refine ⟨?_, ?_, ?_⟩
  · intro e he
    simp only [Rope.Delete, hroot, if_neg hnz, hgi, he]
  · intro h0
    simp only [Rope.Delete, hroot, if_neg hnz, hgi, h0]
    rfl
  · intro idx hok
    have hlt : idx < n.flatten.length := by
      have := resolveIndex_le hok
      rw [contentOf_of_root hroot] at this
      omega
    have hrune : r.RuneAt ((idx + 1 - 1 : Nat) : Int) = .ok (n.flatten.getD idx default) := by
      have hb1 : ¬((idx + 1 - 1 : Nat) : Int) < 0 := by omega
      have hb2 : ¬((n.length : Int) ≤ ((idx + 1 - 1 : Nat) : Int)) := by
        rw [length_flatten hwf]
        omega
      simp only [Rope.RuneAt, hroot]
      rw [if_neg (by push_neg; exact ⟨by omega, by rw [length_flatten hwf]; omega⟩)]
      have : ((idx + 1 - 1 : Nat) : Int).toNat = idx := by omega
      rw [this]
      exact runeAt_spec n idx hwf hlt
    obtain ⟨hwf', hfl'⟩ := delete_spec n idx hwf hlt
    have hinv1 : Inv (⟨some (n.delete idx),
        Rope.updateLineIndexOnDelete r.lineStarts idx (n.flatten.getD idx default)⟩ : Rope) := by
      refine ⟨n.delete idx, rfl, hwf', ?_⟩
      simp only [hls, hfl']
      exact updateLineIndexOnDelete_spec n.flatten idx hlt
    have hcont1 : (⟨some (n.delete idx),
        Rope.updateLineIndexOnDelete r.lineStarts idx
          (n.flatten.getD idx default)⟩ : Rope).contentOf =
        r.contentOf.eraseIdx idx := by
      rw [contentOf_of_root rfl, contentOf_of_root hroot, hfl']
    have hfinal := rebalanceIf_sim _ hinv1
    have hne0 : ¬(idx + 1 = 0) := by omega
    simp only [Rope.Delete, hroot, if_neg hnz, hgi, hok, if_neg hne0, hrune]
    exact ⟨by trivial, hfinal.1, hfinal.2.trans hcont1⟩

/-- The states reachable from `NewRope` through the public mutation API
(failed calls leave the rope unchanged, so they are harmless steps). -/
inductive Reachable : Rope → Prop
  | base (s : List Char) : Reachable (NewRope s)
  | insertStep (r : Rope) (line col : Int) (c : Char) :
      Reachable r → Reachable (r.Insert line col c).1
  | deleteStep (r : Rope) (line col : Int) :
      Reachable r → Reachable (r.Delete line col).1

/-- Every reachable rope satisfies the invariant. -/
theorem reachable_inv {r : Rope} (h : Reachable r) : Inv r := by
  induction h with
  | base s => exact NewRope_inv s
  | insertStep r line col c _ ih =>
    have hsim := Insert_sim r line col c ih
    cases hres : resolveIndex r.contentOf line col with
    | error e =>
      rw [hsim.1 e hres]
      exact ih
    | ok idx => exact (hsim.2 idx hres).2.1
  | deleteStep r line col _ ih =>
    by_cases hz : col = 0 ∧ line = 0
    · obtain ⟨hc, hl⟩ := hz
      subst hc
      subst hl
      rw [Delete_at_start r ih]
      exact ih
    · have hsim := Delete_sim r line col ih hz
      cases hres : resolveIndex r.contentOf line col with
      | error e =>
        rw [hsim.1 e hres]
        exact ih
      | ok idx =>
        cases idx with
        | zero =>
          rw [hsim.2.1 hres]
          exact ih
        | succ j => exact (hsim.2.2 j hres).2.1

/-! ## Claim-level definitions

Small reference-side definitions used by the claim theorems: a key-sequence
driver for the editor, the chunk sequence a rope hands to its sink, a model
of position-resolved insertion over plain text, and the column clamp that
`getIndex` applies on a valid line. -/

/-- Feed a list of `(key, time)` pairs through `handleKey`. -/
def runKeys (E : Editor) (ks : List (Char × Nat)) : Editor :=
  ks.foldl (fun E p => E.handleKey p.1 p.2) E

/-- The chunk sequence `Rope.WriteTo` hands to the sink: the in-order leaf
payloads of the root (empty for a nil root). -/
def Rope.leavesOf (r : Rope) : List (List Char) :=
  match r.root with
  | none => []
  | some n => n.leaves

/-- A sink over state `Nat` that accepts its first chunk in full and fails
every later call having written nothing: it separates "characters the sink
accepted" from the count `WriteTo` reports. -/
def cascadeSink (s : Nat) (d : List Char) : Nat × Nat × Option Unit :=
  if s = 0 then (1, d.length, none) else (s + 1, 0, some ())

/-- A three-leaf rope holding "abc" (weights and line index are the correct
ones for this shape, as `Insert` splits would produce). -/
def ropeThreeLeaves : Rope :=
  { root := some (.internal (.internal (.leaf ['a']) (.leaf ['b']) 1) (.leaf ['c']) 2),
    lineStarts := [0] }

/-- Reference insertion over plain text: resolve `(line, col)` exactly as
`getIndex` does and splice the character in; a resolution failure leaves the
text unchanged (as the failed `Insert` leaves the rope). -/
def modelInsert (s : List Char) (line col : Int) (c : Char) : List Char :=
  match resolveIndex s line col with
  | .ok idx => s.insertIdx idx c
  | .error _ => s

/-- Run a sequence of `(line, col, char)` insertions over plain text. -/
def modelRun (s : List Char) (ops : List (Int × Int × Char)) : List Char :=
  ops.foldl (fun s p => modelInsert s p.1 p.2.1 p.2.2) s

/-- Run the same sequence through `Rope.Insert`, keeping each returned rope
(the source discards the error and keeps the receiver). -/
def applyInserts (r : Rope) (ops : List (Int × Int × Char)) : Rope :=
  ops.foldl (fun r p => (r.Insert p.1 p.2.1 p.2.2).1) r

/-- The characters of the insertions that succeed (resolve), in call order. -/
def okChars : List Char → List (Int × Int × Char) → List Char
  | _, [] => []
  | s, p :: t =>
    match resolveIndex s p.1 p.2.1 with
    | .ok _ => p.2.2 :: okChars (modelInsert s p.1 p.2.1 p.2.2) t
    | .error _ => okChars s t

/-- The character count of line `ln` as `getIndex` computes it
(`lineCharLength` in the source): next line start minus this one minus the
newline, or the remainder of the document for the last line. -/
def lineLenAt (r : Rope) (ln : Nat) : Nat :=
  let startIndex := r.lineStarts.getD ln 0
  if ln + 1 < r.lineStarts.length then r.lineStarts.getD (ln + 1) 0 - startIndex - 1
  else (match r.root with | none => 0 | some root => root.length) - startIndex

/-- The clamp `getIndex` applies to `col` on a valid line: negatives to `0`,
overshoots to the line length. -/
def clampColNat (r : Rope) (ln : Nat) (col : Int) : Nat :=
  if col < 0 then 0
  else if (lineLenAt r ln : Int) < col then lineLenAt r ln
  else col.toNat

/-- The same clamp as an `Int` column argument. -/
def clampedCol (r : Rope) (line col : Int) : Int :=
  (clampColNat r line.toNat col : Int)

/-! ## WriteTo against the chunk sequence -/

theorem writeChunks_append_err {σ ε : Type} (wr : σ → List Char → σ × Nat × Option ε)
    (A B : List (List Char)) (s : σ) (s1 : σ) (c1 : Nat) (e : ε)
    (h : writeChunks wr A s = (s1, c1, some e)) :
    writeChunks wr (A ++ B) s = (s1, c1, some e) := by
  induction A generalizing s c1 with
  | nil => simp [writeChunks] at h
  | cons a t ih =>
    rw [List.cons_append]
    rw [writeChunks] at h ⊢
    rcases hw : wr s a with ⟨s2, n2, e2⟩
    rw [hw] at h
    cases e2 with
    | some e' => exact h
    | none =>
      dsimp only at h ⊢
      rcases ht : writeChunks wr t s2 with ⟨s3, c3, e3⟩
      rw [ht] at h
      dsimp only at h
      cases e3 with
      | none => simp at h
      | some e'' =>
        have h1 : s3 = s1 := congrArg Prod.fst h
        have h2 : n2 + c3 = c1 := congrArg (fun p => p.2.1) h
        have h3 : (some e'' : Option ε) = some e := congrArg (fun p => p.2.2) h
        injection h3 with h3'
        subst h1; subst h2; subst h3'
        rw [ih s2 c3 ht]

theorem writeChunks_append_ok {σ ε : Type} (wr : σ → List Char → σ × Nat × Option ε)
    (A B : List (List Char)) (s : σ) (s1 : σ) (c1 : Nat)
    (h : writeChunks wr A s = (s1, c1, none)) :
    writeChunks wr (A ++ B) s =
      ((writeChunks wr B s1).1, c1 + (writeChunks wr B s1).2.1,
       (writeChunks wr B s1).2.2) := by
  induction A generalizing s c1 with
  | nil =>
    rw [writeChunks] at h
    have h1 : s = s1 := congrArg Prod.fst h
    have h2 : (0 : Nat) = c1 := congrArg (fun p => p.2.1) h
    subst h1
    subst h2
    rcases hB : writeChunks wr B s with ⟨x, y, z⟩
    simp [List.nil_append, hB]
  | cons a t ih =>
    rw [List.cons_append]
    rw [writeChunks] at h ⊢
    rcases hw : wr s a with ⟨s2, n2, e2⟩
    rw [hw] at h
    cases e2 with
    | some e' => simp at h
    | none =>
      dsimp only at h ⊢
      rcases ht : writeChunks wr t s2 with ⟨s3, c3, e3⟩
      rw [ht] at h
      dsimp only at h
      cases e3 with
      | some e'' => simp at h
      | none =>
        have h1 : s3 = s1 := congrArg Prod.fst h
        have h2 : n2 + c3 = c1 := congrArg (fun p => p.2.1) h
        subst h1
        subst h2
        rw [ih s2 c3 ht]
        dsimp only
        rw [Nat.add_assoc]

/-- `node.writeTo` against the honest chunk run: same final sink state, same
first error, a reported count that can only undershoot, with exact agreement
on success. -/
theorem writeTo_chunks {σ ε : Type} (wr : σ → List Char → σ × Nat × Option ε)
    (n : Node) (s : σ) :
    (n.writeTo wr s).1 = (writeChunks wr n.leaves s).1 ∧
    (n.writeTo wr s).2.2 = (writeChunks wr n.leaves s).2.2 ∧
    (n.writeTo wr s).2.1 ≤ (writeChunks wr n.leaves s).2.1 ∧
    ((writeChunks wr n.leaves s).2.2 = none →
      (n.writeTo wr s).2.1 = (writeChunks wr n.leaves s).2.1) := by
  induction n generalizing s with
  | leaf d =>
    simp only [Node.writeTo, Node.leaves, writeChunks]
    rcases hw : wr s d with ⟨s1, n1, e1⟩
    cases e1 <;> simp
  | internal l r w ihl ihr =>
    simp only [Node.writeTo, Node.leaves]
    rcases hl : l.writeTo wr s with ⟨s1, w1, e1⟩
    rcases hcl : writeChunks wr l.leaves s with ⟨s1c, c1, e1c⟩
    have hL := ihl s
    rw [hl, hcl] at hL
    dsimp only at hL
    obtain ⟨hLs, hLe, hLc, hLeq⟩ := hL
    subst hLs
    cases e1 with
    | some e =>
      cases e1c with
      | none => exact absurd hLe.symm (by simp)
      | some e' =>
        cases hLe
        rw [writeChunks_append_err wr l.leaves r.leaves s s1 c1 e hcl]
        dsimp only
        exact ⟨rfl, rfl, by omega, by simp⟩
    | none =>
      dsimp only
      cases e1c with
      | some e' => exact absurd hLe (by simp)
      | none =>
        rw [writeChunks_append_ok wr l.leaves r.leaves s s1 c1 hcl]
        dsimp only
        rcases hr : r.writeTo wr s1 with ⟨s2, w2, e2⟩
        have hR := ihr s1
        rw [hr] at hR
        dsimp only at hR
        obtain ⟨hRs, hRe, hRc, hReq⟩ := hR
        have hw1 : w1 = c1 := hLeq rfl
        cases e2 with
        | some e =>
          dsimp only
          refine ⟨hRs, hRe, by omega, ?_⟩
          intro habs
          exact absurd (hRe.trans habs) (by simp)
        | none =>
          dsimp only
          refine ⟨hRs, hRe, by omega, ?_⟩
          intro hnone
          have := hReq hnone
          omega

/-! ## Round trip through the accepting sink -/

/-- `writeTo` into the accepting sink appends exactly the node's content and
counts every character. -/
theorem writeTo_sinkOK (n : Node) (s : List Char) :
    n.writeTo sinkOK s = (s ++ n.flatten, n.flatten.length, none) := by
  induction n generalizing s with
  | leaf d => rfl
  | internal l r w ihl ihr =>
    simp only [Node.writeTo, ihl, ihr, Node.flatten]
    simp [List.append_assoc]

theorem WriteTo_sinkOK (r : Rope) :
    Rope.WriteTo sinkOK r [] = (r.contentOf, r.contentOf.length, none) := by
  cases hroot : r.root with
  | none => simp [Rope.WriteTo, Rope.contentOf, hroot]
  | some n => simp [Rope.WriteTo, Rope.contentOf, hroot, writeTo_sinkOK]

/-- Running a sequence of `Insert` calls keeps the invariant and tracks the
plain-text model exactly (a failed call changes neither side). -/
theorem applyInserts_sim (ops : List (Int × Int × Char)) (r : Rope) (hInv : Inv r) :
    Inv (applyInserts r ops) ∧
    (applyInserts r ops).contentOf = modelRun r.contentOf ops := by
  induction ops generalizing r with
  | nil => exact ⟨hInv, rfl⟩
  | cons p t ih =>
    have hstep := Insert_sim r p.1 p.2.1 p.2.2 hInv
    have h1 : applyInserts r (p :: t) = applyInserts (r.Insert p.1 p.2.1 p.2.2).1 t := rfl
    have h2 : modelRun r.contentOf (p :: t) =
        modelRun (modelInsert r.contentOf p.1 p.2.1 p.2.2) t := rfl
    rcases hres : resolveIndex r.contentOf p.1 p.2.1 with e | idx
    · have heq : (r.Insert p.1 p.2.1 p.2.2).1 = r := by rw [hstep.1 e hres]
      have hm : modelInsert r.contentOf p.1 p.2.1 p.2.2 = r.contentOf := by
        simp [modelInsert, hres]
      rw [h1, h2, heq, hm]
      exact ih r hInv
    · obtain ⟨hsnd, hinv1, hcont1⟩ := hstep.2 idx hres
      have hm : modelInsert r.contentOf p.1 p.2.1 p.2.2 =
          r.contentOf.insertIdx idx p.2.2 := by
        simp [modelInsert, hres]
      obtain ⟨hinvT, hcontT⟩ := ih _ hinv1
      rw [h1, h2]
      refine ⟨hinvT, ?_⟩
      rw [hcontT, hm, hcont1]

theorem insertIdx_perm_cons {α : Type} (s : List α) (i : Nat) (c : α)
    (h : i ≤ s.length) : (s.insertIdx i c).Perm (c :: s) := by
  rw [insertIdx_eq_take_drop s i c h]
  refine List.Perm.trans List.perm_middle ?_
  rw [List.take_append_drop]

/-- The model run is, up to position, the successful characters plus the
initial text. -/
theorem modelRun_perm (ops : List (Int × Int × Char)) (s : List Char) :
    (modelRun s ops).Perm (okChars s ops ++ s) := by
  induction ops generalizing s with
  | nil => simp [modelRun, okChars]
  | cons p t ih =>
    have h1 : modelRun s (p :: t) = modelRun (modelInsert s p.1 p.2.1 p.2.2) t := rfl
    rw [h1]
    rcases hres : resolveIndex s p.1 p.2.1 with e | idx
    · have hm : modelInsert s p.1 p.2.1 p.2.2 = s := by simp [modelInsert, hres]
      simp only [okChars, hres]
      rw [hm]
      exact ih s
    · have hm : modelInsert s p.1 p.2.1 p.2.2 = s.insertIdx idx p.2.2 := by
        simp [modelInsert, hres]
      simp only [okChars, hres]
      refine (ih (modelInsert s p.1 p.2.1 p.2.2)).trans ?_
      have hs' : (modelInsert s p.1 p.2.1 p.2.2).Perm (p.2.2 :: s) := by
        rw [hm]
        exact insertIdx_perm_cons s idx p.2.2 (resolveIndex_le hres)
      refine (List.Perm.append_left (okChars (modelInsert s p.1 p.2.1 p.2.2) t) hs').trans ?_
      exact List.perm_middle

/-! ## Column clamping in getIndex -/

/-- On a valid line, `getIndex` succeeds and applies exactly the clamp
`clampColNat` to the column. -/
theorem getIndex_valid (r : Rope) {n : Node} (hroot : r.root = some n)
    {line : Int} (h0 : 0 ≤ line) (h1 : line < (r.lineStarts.length : Int)) (col : Int) :
    r.getIndex line col =
      .ok (r.lineStarts.getD line.toNat 0 + clampColNat r line.toNat col) := by
  unfold Rope.getIndex
  rw [hroot]
  dsimp only
  rw [if_neg (show ¬line < 0 by omega),
      if_neg (show ¬(r.lineStarts.length : Int) ≤ line by omega)]
  congr 1
  have hk : (if line.toNat + 1 < r.lineStarts.length
      then r.lineStarts.getD (line.toNat + 1) 0 - r.lineStarts.getD line.toNat 0 - 1
      else n.length - r.lineStarts.getD line.toNat 0) = lineLenAt r line.toNat := by
    simp [lineLenAt, hroot]
  rw [hk]
  unfold clampColNat
  by_cases hc : col < 0
  · simp only [if_pos hc]
    rw [if_neg (show ¬(lineLenAt r line.toNat : Int) < 0 by omega)]
    simp
  · simp only [if_neg hc]

theorem clampColNat_le (r : Rope) (ln : Nat) (col : Int) :
    clampColNat r ln col ≤ lineLenAt r ln ∨
      (0 ≤ col ∧ clampColNat r ln col = col.toNat) := by
  unfold clampColNat
  repeat' split
  · left; omega
  · left; omega
  · right; omega

theorem clampColNat_cast (r : Rope) (ln : Nat) (m : Nat) (hm : m ≤ lineLenAt r ln) :
    clampColNat r ln (m : Int) = m := by
  unfold clampColNat
  rw [if_neg (by omega), if_neg (by omega)]
  omega

theorem clampColNat_le_len (r : Rope) (ln : Nat) (col : Int)
    (h : ¬((lineLenAt r ln : Int) < col)) : clampColNat r ln col ≤ lineLenAt r ln := by
  unfold clampColNat
  repeat' split
  all_goals omega

/-- `Insert` is determined by the resolved offset: two columns that resolve
to the same offset give identical results. -/
theorem Insert_getIndex_congr (r : Rope) {n : Node} (hroot : r.root = some n)
    {line col col' : Int} (c : Char) {i : Nat}
    (h1 : r.getIndex line col = .ok i) (h2 : r.getIndex line col' = .ok i) :
    r.Insert line col c = r.Insert line col' c := by
  unfold Rope.Insert
  dsimp only
  rw [hroot]
  dsimp only
  rw [h1, h2]

/-- `Delete` away from `(0, 0)` is likewise determined by the resolved
offset. -/
theorem Delete_getIndex_congr (r : Rope) {n : Node} (hroot : r.root = some n)
    {line col col' : Int} {i : Nat}
    (hc : ¬(col = 0 ∧ line = 0)) (hc' : ¬(col' = 0 ∧ line = 0))
    (h1 : r.getIndex line col = .ok i) (h2 : r.getIndex line col' = .ok i) :
    r.Delete line col = r.Delete line col' := by
  unfold Rope.Delete
  rw [hroot]
  dsimp only
  rw [if_neg hc, if_neg hc', h1, h2]

theorem resolveIndex_ok_bounds (s : List Char) (line col : Int) :
    (∃ i, resolveIndex s line col = .ok i) ↔
      0 ≤ line ∧ line < ((lineStartsOf s).length : Int) := by
  unfold resolveIndex
  by_cases hl : line < 0
  · rw [if_pos hl]
    exact iff_of_false (by simp) (by omega)
  · rw [if_neg hl]
    by_cases hb : ((lineStartsOf s).length : Int) ≤ line
    · rw [if_pos hb]
      exact iff_of_false (by simp) (by omega)
    · rw [if_neg hb]
      exact iff_of_true ⟨_, rfl⟩ (by omega)

theorem LineCount_eq_ls (r : Rope) (hInv : Inv r) :
    r.LineCount = r.lineStarts.length ∧ 0 < r.lineStarts.length := by
  obtain ⟨n, hroot, hwf, hls⟩ := hInv
  rw [Rope.LineCount, hls]
  simp [lineStartsOf]

/-! ## Claim theorems: the rope layer -/

/-- C4: for every rope reachable from `NewRope` through the mutation API,
`LineCount` equals one plus the number of newline characters in the current
document content. -/
theorem C4_lineCount_newlines (r : Rope) (h : Reachable r) :
    r.LineCount = 1 + countNL r.contentOf := by
  obtain ⟨n, hroot, hwf, hls⟩ := reachable_inv h
  have hlen : (lineStartsOf n.flatten).length = 1 + countNL n.flatten := by
    simp [lineStartsOf, marks_length, Nat.add_comm]
  rw [Rope.LineCount, hls, hlen, contentOf_of_root hroot]
  rw [if_neg (by omega)]

theorem C4_lineCount_newlines_witness :
    (NewRope ['a', '\n', 'b']).LineCount =
      1 + countNL (NewRope ['a', '\n', 'b']).contentOf ∧
    (NewRope []).LineCount = 1 :=
  ⟨C4_lineCount_newlines _ (Reachable.base _), by decide⟩

/-- C5: on every reachable rope a failed `Insert` or `Delete` leaves the rope
(tree and line index alike) exactly as it was, and `Delete` at `(0, 0)` is
the defined `deleteAtStart` error with no mutation. -/
theorem C5_failed_mutation_frame (r : Rope) (h : Reachable r) (line col : Int) (c : Char) :
    ((r.Insert line col c).2.isSome = true → (r.Insert line col c).1 = r) ∧
    ((r.Delete line col).2.isSome = true → (r.Delete line col).1 = r) ∧
    r.Delete 0 0 = (r, some .deleteAtStart) := by
  obtain ⟨n, hroot, hwf, hls⟩ := reachable_inv h
  refine ⟨?_, ?_, Delete_at_start r ⟨n, hroot, hwf, hls⟩⟩
  · intro hsome
    have hsim := Insert_sim r line col c ⟨n, hroot, hwf, hls⟩
    rcases hres : resolveIndex r.contentOf line col with e | i
    · rw [hsim.1 e hres]
    · rw [(hsim.2 i hres).1] at hsome
      simp at hsome
  · intro hsome
    by_cases h00 : col = 0 ∧ line = 0
    · obtain ⟨rfl, rfl⟩ := h00
      rw [Delete_at_start r ⟨n, hroot, hwf, hls⟩]
    · have hsim := Delete_sim r line col ⟨n, hroot, hwf, hls⟩ h00
      rcases hres : resolveIndex r.contentOf line col with e | i
      · rw [hsim.1 e hres]
      · cases i with
        | zero => rw [hsim.2.1 hres]
        | succ j =>
          rw [(hsim.2.2 j hres).1] at hsome
          simp at hsome

theorem C5_failed_mutation_frame_witness :
    ((Rope.Insert (NewRope ['a', 'b']) 5 0 'x').2.isSome = true →
      (Rope.Insert (NewRope ['a', 'b']) 5 0 'x').1 = NewRope ['a', 'b']) ∧
    ((Rope.Delete (NewRope ['a', 'b']) 5 0).2.isSome = true →
      (Rope.Delete (NewRope ['a', 'b']) 5 0).1 = NewRope ['a', 'b']) ∧
    Rope.Delete (NewRope ['a', 'b']) 0 0 = (NewRope ['a', 'b'], some .deleteAtStart) :=
  C5_failed_mutation_frame (NewRope ['a', 'b']) (Reachable.base _) 5 0 'x'

/-- C6 (amended): `WriteTo` interacts with the sink exactly as the honest
in-order chunk run does — same final sink state, same first error — and on
success also reports the same count; on an error, however, the count it
returns can undershoot the characters actually accepted by the sink (it is
only bounded by the honest count), because a parent node reports its local
total instead of the failing subtree's. -/
theorem C6_writeTo_inorder_count {σ ε : Type} (wr : σ → List Char → σ × Nat × Option ε)
    (r : Rope) (s : σ) :
    (Rope.WriteTo wr r s).1 = (writeChunks wr (Rope.leavesOf r) s).1 ∧
    (Rope.WriteTo wr r s).2.2 = (writeChunks wr (Rope.leavesOf r) s).2.2 ∧
    (Rope.WriteTo wr r s).2.1 ≤ (writeChunks wr (Rope.leavesOf r) s).2.1 ∧
    ((Rope.WriteTo wr r s).2.2 = none →
      Rope.WriteTo wr r s = writeChunks wr (Rope.leavesOf r) s) := by
  cases hroot : r.root with
  | none =>
    simp [Rope.WriteTo, Rope.leavesOf, hroot, writeChunks]
  | some n =>
    have h := writeTo_chunks wr n s
    have hW : Rope.WriteTo wr r s = n.writeTo wr s := by simp [Rope.WriteTo, hroot]
    have hL : Rope.leavesOf r = n.leaves := by simp [Rope.leavesOf, hroot]
    rw [hW, hL]
    refine ⟨h.1, h.2.1, h.2.2.1, ?_⟩
    intro hnone
    have heq2 : (writeChunks wr n.leaves s).2.2 = none := h.2.1 ▸ hnone
    have hcnt : (n.writeTo wr s).2.1 = (writeChunks wr n.leaves s).2.1 := h.2.2.2 heq2
    rcases ha : n.writeTo wr s with ⟨s1, c1, e1⟩
    rcases hb : writeChunks wr n.leaves s with ⟨s2, c2, e2⟩
    rw [ha, hb] at h hcnt
    dsimp only at h hcnt
    rw [h.1, hcnt, h.2.1]

/-- C6 counterexample: on `ropeThreeLeaves` with `cascadeSink` (first chunk
accepted — one character written — second chunk fails) `WriteTo` returns the
error with count `0`, while the honest chunk run reports the one character
the sink actually accepted. -/
theorem C6_dropped_count_cex :
    Rope.WriteTo cascadeSink ropeThreeLeaves 0 = (2, 0, some ()) ∧
    writeChunks cascadeSink (Rope.leavesOf ropeThreeLeaves) 0 = (2, 1, some ()) := by
  constructor <;> rfl

/-- C7 (amended): `Insert(line, col, c)` succeeds exactly for
`0 ≤ line < LineCount()` — so the append-at-end position `line = LineCount()`
is rejected — and on a valid line the column is clamped into
`[0, line length]`, never causing an error. -/
theorem C7_insert_line_bounds_and_clamp (r : Rope) (h : Reachable r)
    (line col : Int) (c : Char) :
    ((r.Insert line col c).2 = none ↔ 0 ≤ line ∧ line < (r.LineCount : Int)) ∧
    (0 ≤ line → line < (r.LineCount : Int) →
      r.Insert line col c = r.Insert line (clampedCol r line col) c ∧
      0 ≤ clampedCol r line col ∧
      clampedCol r line col ≤ (lineLenAt r line.toNat : Int)) := by
  have hInv := reachable_inv h
  obtain ⟨n, hroot, hwf, hls⟩ := hInv
  have hcnt : r.LineCount = r.lineStarts.length :=
    (LineCount_eq_ls r ⟨n, hroot, hwf, hls⟩).1
  constructor
  · have hsim := Insert_sim r line col c ⟨n, hroot, hwf, hls⟩
    have hbounds : (∃ i, resolveIndex r.contentOf line col = .ok i) ↔
        0 ≤ line ∧ line < ((lineStartsOf r.contentOf).length : Int) :=
      resolveIndex_ok_bounds r.contentOf line col
    have hlsc : (lineStartsOf r.contentOf).length = r.lineStarts.length := by
      rw [contentOf_of_root hroot, hls]
    rw [hlsc] at hbounds
    rw [hcnt, ← hbounds]
    constructor
    · intro hnone
      rcases hres : resolveIndex r.contentOf line col with e | i
      · rw [hsim.1 e hres] at hnone
        simp at hnone
      · exact ⟨i, rfl⟩
    · rintro ⟨i, hi⟩
      exact (hsim.2 i hi).1
  · intro h0 h1
    rw [hcnt] at h1
    have hg1 := getIndex_valid r hroot h0 h1 col
    have hg2 := getIndex_valid r hroot h0 h1 (clampedCol r line col)
    have hle : clampColNat r line.toNat col ≤ lineLenAt r line.toNat ∨
        (0 ≤ col ∧ clampColNat r line.toNat col = col.toNat) :=
      clampColNat_le r line.toNat col
    have hcle : clampColNat r line.toNat col ≤ lineLenAt r line.toNat := by
      rcases hle with h | ⟨hc0, hceq⟩
      · exact h
      · by_cases hover : (lineLenAt r line.toNat : Int) < col
        · exfalso
          unfold clampColNat at hceq
          rw [if_neg (by omega), if_pos hover] at hceq
          omega
        · exact clampColNat_le_len r line.toNat col hover
    have hidem : clampColNat r line.toNat (clampedCol r line col) =
        clampColNat r line.toNat col := by
      unfold clampedCol
      exact clampColNat_cast r line.toNat _ hcle
    rw [hidem] at hg2
    refine ⟨Insert_getIndex_congr r hroot c hg1 hg2, by unfold clampedCol; omega, ?_⟩
    unfold clampedCol
    omega

theorem C7_insert_line_bounds_and_clamp_witness :
    Rope.Insert (NewRope ['h', 'i']) 0 99 'x' =
      Rope.Insert (NewRope ['h', 'i']) 0 (clampedCol (NewRope ['h', 'i']) 0 99) 'x' ∧
    (Rope.Insert (NewRope ['h', 'i']) 0 99 'x').2 = none ∧
    clampedCol (NewRope ['h', 'i']) 0 99 = 2 := by
  have h := C7_insert_line_bounds_and_clamp (NewRope ['h', 'i']) (Reachable.base _) 0 99 'x'
  exact ⟨(h.2 (by decide) (by decide)).1, h.1.mpr ⟨by decide, by decide⟩, by decide⟩

/-- C7 counterexample: the empty document has `LineCount() = 1`, yet
`Insert` at the append-at-end position `line = 1 = LineCount()` returns a
position error and leaves the rope unchanged. -/
theorem C7_append_line_rejected_cex :
    (NewRope []).LineCount = 1 ∧
    (Rope.Insert (NewRope []) 1 0 'a').2.isSome = true ∧
    (Rope.Insert (NewRope []) 1 0 'a').1 = NewRope [] := by
  refine ⟨rfl, rfl, ?_⟩
  decide

/-- C8: for every op sequence from the empty document, `WriteTo` streams out
exactly the model text built by resolved splices — in document order — and
that text is a permutation of the successfully inserted characters (all of
them, when every `Insert` succeeds). -/
theorem C8_writeTo_round_trip (ops : List (Int × Int × Char)) :
    Rope.WriteTo sinkOK (applyInserts (NewRope []) ops) [] =
      (modelRun [] ops, (modelRun [] ops).length, none) ∧
    (modelRun [] ops).Perm (okChars [] ops) := by
  have h := applyInserts_sim ops (NewRope []) (NewRope_inv [])
  have hempty : (NewRope ([] : List Char)).contentOf = [] := rfl
  constructor
  · rw [WriteTo_sinkOK, h.2, hempty]
  · have hp := modelRun_perm ops []
    simpa using hp

/-- C10: on a valid line with `k ≥ 1` characters, `Delete` with an overshot
column behaves exactly like `Delete` at column `k` — deleting the final
character of the line, with no error — and a negative column acts as column
`0` (same resulting rope, an error exactly when column `0` errors). -/
theorem C10_delete_clamps_column (r : Rope) (h : Reachable r) (line c : Int)
    (h0 : 0 ≤ line) (h1 : line < (r.LineCount : Int)) :
    ((lineLenAt r line.toNat : Int) < c → 1 ≤ lineLenAt r line.toNat →
      r.Delete line c = r.Delete line (lineLenAt r line.toNat : Int) ∧
      (r.Delete line c).2 = none ∧
      (r.Delete line c).1.contentOf =
        r.contentOf.eraseIdx
          (r.lineStarts.getD line.toNat 0 + lineLenAt r line.toNat - 1)) ∧
    (c < 0 →
      (r.Delete line c).1 = (r.Delete line 0).1 ∧
      ((r.Delete line c).2.isSome ↔ (r.Delete line 0).2.isSome)) := by
  have hInv := reachable_inv h
  obtain ⟨n, hroot, hwf, hls⟩ := hInv
  have hcnt : r.LineCount = r.lineStarts.length :=
    (LineCount_eq_ls r ⟨n, hroot, hwf, hls⟩).1
  rw [hcnt] at h1
  constructor
  · intro hover hk
    have hclamp : clampColNat r line.toNat c = lineLenAt r line.toNat := by
      unfold clampColNat
      rw [if_neg (by omega), if_pos hover]
    have hclamp2 : clampColNat r line.toNat (lineLenAt r line.toNat : Int) =
        lineLenAt r line.toNat := clampColNat_cast r line.toNat _ le_rfl
    have hg1 := getIndex_valid r hroot h0 h1 c
    have hg2 := getIndex_valid r hroot h0 h1 (lineLenAt r line.toNat : Int)
    rw [hclamp] at hg1
    rw [hclamp2] at hg2
    have hc1 : ¬(c = 0 ∧ line = 0) := by intro hx; omega
    have hc2 : ¬((lineLenAt r line.toNat : Int) = 0 ∧ line = 0) := by
      intro hx; omega
    refine ⟨Delete_getIndex_congr r hroot hc1 hc2 hg1 hg2, ?_⟩
    have hres : resolveIndex r.contentOf line c =
        .ok (r.lineStarts.getD line.toNat 0 + lineLenAt r line.toNat) := by
      rw [← getIndex_eq r ⟨n, hroot, hwf, hls⟩]
      exact hg1
    have hrw : r.lineStarts.getD line.toNat 0 + lineLenAt r line.toNat =
        (r.lineStarts.getD line.toNat 0 + lineLenAt r line.toNat - 1) + 1 := by omega
    rw [hrw] at hres
    have hsim := (Delete_sim r line c ⟨n, hroot, hwf, hls⟩ hc1).2.2 _ hres
    exact ⟨hsim.1, hsim.2.2⟩
  · intro hneg
    have hg1 := getIndex_valid r hroot h0 h1 c
    have hg2 := getIndex_valid r hroot h0 h1 0
    have hcl1 : clampColNat r line.toNat c = 0 := by
      unfold clampColNat
      rw [if_pos hneg]
    have hcl2 : clampColNat r line.toNat 0 = 0 := by
      unfold clampColNat
      rw [if_neg (by omega), if_neg (by omega)]
      rfl
    rw [hcl1] at hg1
    rw [hcl2] at hg2
    have hc1 : ¬(c = 0 ∧ line = 0) := by intro hx; omega
    by_cases hline : line = 0
    · subst hline
      have hstart : r.lineStarts.getD (0 : Int).toNat 0 = 0 := by
        rw [hls]
        rfl
      rw [hstart] at hg1
      have hres : resolveIndex r.contentOf 0 c = .ok 0 := by
        rw [← getIndex_eq r ⟨n, hroot, hwf, hls⟩]
        exact hg1
      have hd1 := (Delete_sim r 0 c ⟨n, hroot, hwf, hls⟩ hc1).2.1 hres
      have hd2 := Delete_at_start r ⟨n, hroot, hwf, hls⟩
      rw [hd1, hd2]
      exact ⟨rfl, by simp⟩
    · have hc2 : ¬((0 : Int) = 0 ∧ line = 0) := by intro hx; exact hline hx.2
      have heq := Delete_getIndex_congr r hroot hc1 hc2 hg1 hg2
      rw [heq]
      exact ⟨rfl, Iff.rfl⟩

theorem C10_delete_clamps_column_witness :
    Rope.Delete (NewRope ['a', 'b']) 0 5 = Rope.Delete (NewRope ['a', 'b']) 0 2 ∧
    (Rope.Delete (NewRope ['a', 'b']) 0 5).2 = none ∧
    (Rope.Delete (NewRope ['a', 'b']) 0 5).1.contentOf = ['a'] ∧
    (Rope.Delete (NewRope ['a', 'b']) 0 (-3)).1 = (Rope.Delete (NewRope ['a', 'b']) 0 0).1 := by
  have h5 := C10_delete_clamps_column (NewRope ['a', 'b']) (Reachable.base _) 0 5
    (by decide) (by decide)
  have hm := C10_delete_clamps_column (NewRope ['a', 'b']) (Reachable.base _) 0 (-3)
    (by decide) (by decide)
  have ha := h5.1 (by decide) (by decide)
  have hcast : ((lineLenAt (NewRope ['a', 'b']) (0 : Int).toNat : Nat) : Int) = 2 := by decide
  refine ⟨?_, ha.2.1, ?_, (hm.2 (by decide)).1⟩
  · rw [← hcast]
    exact ha.1
  · have := ha.2.2
    simpa using this

/-! ## Redo-stack preservation of the editing helpers

None of the helpers reached from a non-exempt `handleKey` branch touches
`redoStack`; each lemma states that, so the branch reduces to the cleared
stack of the second dispatch switch. -/

@[simp] theorem setStatusMessage_redoStack (E : Editor) (msg : String) :
    (E.setStatusMessage msg).redoStack = E.redoStack := rfl

@[simp] theorem beginUndoGroup_redoStack (E : Editor) :
    E.beginUndoGroup.redoStack = E.redoStack := rfl

@[simp] theorem endUndoGroup_redoStack (E : Editor) :
    E.endUndoGroup.redoStack = E.redoStack := rfl

@[simp] theorem setClipboardText_redoStack (E : Editor) (t : List Char) :
    (E.setClipboardText t).redoStack = E.redoStack := rfl

@[simp] theorem pushUndoInsertBlock_redoStack (E : Editor) (entries : List OpEntry) :
    (E.pushUndoInsertBlock entries).redoStack = E.redoStack := by
  unfold Editor.pushUndoInsertBlock
  split <;> rfl

@[simp] theorem pushUndoDeleteBlock_redoStack (E : Editor) (entries : List OpEntry)
    (b : Bool) : (E.pushUndoDeleteBlock entries b).redoStack = E.redoStack := by
  unfold Editor.pushUndoDeleteBlock
  split <;> rfl

@[simp] theorem pushUndoDeleteIfExternalGrouping_redoStack (E : Editor)
    (line col : Int) (r : Char) :
    (E.pushUndoDeleteIfExternalGrouping line col r).redoStack = E.redoStack := rfl

@[simp] theorem flushTypingGroup_redoStack (E : Editor) :
    E.flushTypingGroup.redoStack = E.redoStack := by
  unfold Editor.flushTypingGroup
  repeat' split
  all_goals simp

@[simp] theorem flushBackspaceGroup_redoStack (E : Editor) :
    E.flushBackspaceGroup.redoStack = E.redoStack := by
  unfold Editor.flushBackspaceGroup
  repeat' split
  all_goals simp

@[simp] theorem flushDeleteGroup_redoStack (E : Editor) :
    E.flushDeleteGroup.redoStack = E.redoStack := by
  unfold Editor.flushDeleteGroup
  repeat' split
  all_goals simp

@[simp] theorem flushEditGroups_redoStack (E : Editor) :
    E.flushEditGroups.redoStack = E.redoStack := by
  unfold Editor.flushEditGroups
  simp

@[simp] theorem flushTypingAndBackspaceIfNeeded_redoStack (E : Editor) :
    E.flushTypingAndBackspaceIfNeeded.redoStack = E.redoStack := by
  unfold Editor.flushTypingAndBackspaceIfNeeded
  simp

@[simp] theorem save_redoStack (E : Editor) : E.save.redoStack = E.redoStack := by
  unfold Editor.save
  dsimp only
  repeat' split
  all_goals simp

@[simp] theorem clampCursorX_redoStack (E : Editor) :
    E.clampCursorX.redoStack = E.redoStack := by
  unfold Editor.clampCursorX
  dsimp only
  repeat' split
  all_goals rfl

@[simp] theorem updateLineNumWidth_redoStack (E : Editor) :
    E.updateLineNumWidth.redoStack = E.redoStack := by
  unfold Editor.updateLineNumWidth
  split <;> rfl

@[simp] theorem toggleLineNumbers_redoStack (E : Editor) :
    E.toggleLineNumbers.redoStack = E.redoStack := by
  unfold Editor.toggleLineNumbers
  dsimp only
  repeat' split
  all_goals simp

@[simp] theorem findAllMatches_redoStack (E : Editor) (q : List Char) :
    (E.findAllMatches q).redoStack = E.redoStack := by
  unfold Editor.findAllMatches
  dsimp only
  repeat' split
  all_goals simp

@[simp] theorem jumpToMatch_redoStack (E : Editor) (i : Int) :
    (E.jumpToMatch i).redoStack = E.redoStack := by
  unfold Editor.jumpToMatch
  dsimp only
  repeat' split
  all_goals simp

@[simp] theorem findInitial_redoStack (E : Editor) :
    E.findInitial.redoStack = E.redoStack := by
  unfold Editor.findInitial
  dsimp only
  repeat' split
  all_goals simp

@[simp] theorem moveWordLeft_redoStack (E : Editor) (b : Bool) :
    (E.moveWordLeft b).redoStack = E.redoStack := by
  unfold Editor.moveWordLeft
  dsimp only
  repeat' split
  all_goals simp

@[simp] theorem insertStringLoop_redoStack (chars : List Char) (E : Editor)
    (entries : List OpEntry) :
    (Editor.insertStringLoop E chars entries).1.redoStack = E.redoStack := by
  induction chars generalizing E entries with
  | nil => rfl
  | cons ch t ih =>
    simp only [Editor.insertStringLoop]
    refine (ih _ _).trans ?_
    split <;> rfl

@[simp] theorem insertString_redoStack (E : Editor) (s : List Char) :
    (E.insertString s).redoStack = E.redoStack := by
  unfold Editor.insertString
  dsimp only
  repeat' split
  all_goals simp

@[simp] theorem deleteSelectedText_redoStack (E : Editor) :
    E.deleteSelectedText.redoStack = E.redoStack := by
  unfold Editor.deleteSelectedText
  dsimp only
  repeat' split
  all_goals simp

@[simp] theorem deleteCurrentLine_redoStack (E : Editor) :
    E.deleteCurrentLine.redoStack = E.redoStack := by
  unfold Editor.deleteCurrentLine
  dsimp only
  repeat' split
  all_goals simp

@[simp] theorem pasteLoop_redoStack (chars : List Char) (E : Editor)
    (entries : List OpEntry) :
    (Editor.pasteLoop E chars entries).1.redoStack = E.redoStack := by
  induction chars generalizing E entries with
  | nil => rfl
  | cons ch t ih =>
    simp only [Editor.pasteLoop]
    split
    · simp
    · refine (ih _ _).trans ?_
      split <;> rfl

@[simp] theorem pasteFromClipboard_redoStack (E : Editor) :
    E.pasteFromClipboard.redoStack = E.redoStack := by
  unfold Editor.pasteFromClipboard
  dsimp only
  repeat' split
  all_goals simp

@[simp] theorem duplicateLine_redoStack (E : Editor) :
    E.duplicateLine.redoStack = E.redoStack := by
  unfold Editor.duplicateLine
  dsimp only
  repeat' split
  all_goals simp

@[simp] theorem toggleCaseAtCursor_redoStack (E : Editor) :
    E.toggleCaseAtCursor.redoStack = E.redoStack := by
  unfold Editor.toggleCaseAtCursor
  dsimp only
  repeat' split
  all_goals simp

@[simp] theorem handleDeleteWordLeft_redoStack (E : Editor) :
    E.handleDeleteWordLeft.redoStack = E.redoStack := by
  unfold Editor.handleDeleteWordLeft
  dsimp only
  repeat' split
  all_goals simp

@[simp] theorem enterInsertLoop_redoStack (chars : List Char) (E : Editor)
    (entries : List OpEntry) :
    (Editor.enterInsertLoop E chars entries).1.redoStack = E.redoStack := by
  induction chars generalizing E entries with
  | nil => rfl
  | cons ch t ih =>
    simp only [Editor.enterInsertLoop]
    split
    · simp
    · refine (ih _ _).trans ?_
      split <;> rfl

@[simp] theorem backspaceStep_redoStack (E : Editor) (i : Int) :
    (E.backspaceStep i).redoStack = E.redoStack := by
  unfold Editor.backspaceStep
  dsimp only
  repeat' split
  all_goals simp

@[simp] theorem typingStep_redoStack (r : Char) (E : Editor) (i : Int) :
    (Editor.typingStep r E i).redoStack = E.redoStack := by
  unfold Editor.typingStep
  dsimp only
  repeat' split
  all_goals simp

@[simp] theorem foldl_backspaceStep_redoStack (l : List Int) (E : Editor) :
    (l.foldl Editor.backspaceStep E).redoStack = E.redoStack := by
  induction l generalizing E with
  | nil => rfl
  | cons i t ih => exact (ih _).trans (backspaceStep_redoStack E i)

@[simp] theorem foldl_typingStep_redoStack (r : Char) (l : List Int) (E : Editor) :
    (l.foldl (Editor.typingStep r) E).redoStack = E.redoStack := by
  induction l generalizing E with
  | nil => rfl
  | cons i t ih => exact (ih _).trans (typingStep_redoStack r E i)

/-! ## Claim theorems: the editor layer -/

set_option maxHeartbeats 4000000 in
/-- C9 (amended): every key other than undo (`'\x15'`), redo (`'\x19'`),
escape (`'\x1b'`), copy (`'\x03'`), cut (`'\x18'`) and select-all (`'\x01'`)
leaves `handleKey` with an empty redo stack: the second dispatch switch
clears it first and no helper on those paths touches it again.  (The claim's
exception list omits cut and select-all.) -/
theorem C9_edit_clears_redo (E : Editor) (r : Char) (now : Nat)
    (h : r ∉ (['\x15', '\x19', '\x1b', '\x03', '\x18', '\x01'] : List Char)) :
    (E.handleKey r now).redoStack = [] := by
  simp only [List.mem_cons, List.not_mem_nil, or_false, not_or] at h
  obtain ⟨h15, h19, h1b, h03, h18, h01⟩ := h
  unfold Editor.handleKey
  dsimp only
  repeat' split
  all_goals first
    | (exact absurd rfl h15)
    | (exact absurd rfl h19)
    | (exact absurd rfl h1b)
    | (exact absurd rfl h03)
    | (exact absurd rfl h18)
    | (exact absurd rfl h01)
    | (simp; done)
    | simp_all

theorem C9_edit_clears_redo_witness :
    ('q' ∉ (['\x15', '\x19', '\x1b', '\x03', '\x18', '\x01'] : List Char)) ∧
    ((((mkEditor []).handleKey 'a' 0).handleKey '\x15' 0).handleKey 'q' 0).redoStack = [] :=
  ⟨by decide, C9_edit_clears_redo _ 'q' 0 (by decide)⟩

/-- C9 counterexample: cut (`'\x18'`) is a standalone edit — here it cuts
the only line, changing the document — yet the redo stack survives it. -/
theorem C9_cut_keeps_redo_cex :
    ((((mkEditor []).handleKey 'a' 0).handleKey 'b' 0).handleKey '\x15' 0).redoStack.length
      = 1 ∧
    (((((mkEditor []).handleKey 'a' 0).handleKey 'b' 0).handleKey '\x15' 0).handleKey
      '\x18' 100).redoStack.length = 1 ∧
    (((((mkEditor []).handleKey 'a' 0).handleKey 'b' 0).handleKey '\x15' 0).handleKey
      '\x18' 100).buffer.contentOf ≠
      ((((mkEditor []).handleKey 'a' 0).handleKey 'b' 0).handleKey '\x15'
        0).buffer.contentOf := by
  refine ⟨rfl, rfl, by decide⟩

/-- C1: typing "hello" with sub-900ms gaps does not coalesce: the five undo
actions get five distinct group ids (`beginUndoGroup` runs per keystroke and
`typingEntries` is never fed), so one undo removes a single character — the
result is "helo", not "". -/
theorem C1_typing_groups_fragment :
    (runKeys (mkEditor []) [('h', 0), ('e', 100), ('l', 200), ('l', 300),
        ('o', 400)]).buffer.contentOf = ['h', 'e', 'l', 'l', 'o'] ∧
    ((runKeys (mkEditor []) [('h', 0), ('e', 100), ('l', 200), ('l', 300),
        ('o', 400)]).undoStack.map (fun a => a.groupID)) = [1, 2, 3, 4, 5] ∧
    ((runKeys (mkEditor []) [('h', 0), ('e', 100), ('l', 200), ('l', 300),
        ('o', 400)]).handleKey '\x15' 500).buffer.contentOf = ['h', 'e', 'l', 'o'] := by
  refine ⟨rfl, rfl, rfl⟩

/-- C2: replay errors are discarded, not surfaced.  After typing 'a' the
recorded action replays `Delete(0, 0)` — a failing call — yet `undo` leaves
the buffer untouched, reports success ("Undid last action") and still moves
the action to the redo stack. -/
theorem C2_replay_error_swallowed :
    ((((mkEditor []).handleKey 'a' 0).buffer.Delete 0 0).2.isSome = true) ∧
    (((mkEditor []).handleKey 'a' 0).handleKey '\x15' 100).buffer.contentOf = ['a'] ∧
    (((mkEditor []).handleKey 'a' 0).handleKey '\x15' 100).statusMessage =
      "Undid last action" ∧
    (((mkEditor []).handleKey 'a' 0).handleKey '\x15' 100).redoStack.length = 1 := by
  refine ⟨rfl, rfl, rfl, rfl⟩

/-- C3: undo then redo is not the identity on content.  After typing "ab",
undo replays the recorded `(delLine, delCol) = (0, 1)` — deleting 'a'
instead of 'b' — and redo re-inserts 'b' at the recorded origin, yielding
"bb" ≠ "ab". -/
theorem C3_undo_redo_not_inverse :
    ((((mkEditor []).handleKey 'a' 0).handleKey 'b' 0)).buffer.contentOf = ['a', 'b'] ∧
    ((((((mkEditor []).handleKey 'a' 0).handleKey 'b' 0)).handleKey '\x15'
      0).handleKey '\x19' 0).buffer.contentOf = ['b', 'b'] ∧
    ((((((mkEditor []).handleKey 'a' 0).handleKey 'b' 0)).handleKey '\x15'
      0).handleKey '\x19' 0).buffer.contentOf ≠
      ((((mkEditor []).handleKey 'a' 0).handleKey 'b' 0)).buffer.contentOf := by
  refine ⟨rfl, rfl, by decide⟩

end Panka
